import Mathlib

/-!
# EnigmaMachine.cpp: a shallow embedding of `class Machine`

The C++ class keeps its whole state in fixed-size `int` arrays and a `std::string`.

* `int a[ALPHLENGTH]` is a function `Fin ALPHLENGTH → Int`, so that every value of the model
  is a state of the C++ object and conversely; `int` is `Int` (the only arithmetic of the
  program is `+ 1` on a rotor entry, `% ALPHLENGTH` on a draw and `++` on a position).
* A raw subscript `a[i]` with an `int` index is checked in the model: an index outside the
  array is undefined behaviour in C++ and is `Fault.indexOutOfBounds` here.
  `std::string::at` throws `std::out_of_range`, which is `Fault.outOfRange`.
  The source has no other way to fail: it contains no `throw`.
* `rand()` is an explicit list of draws, consumed from the front; a rejection loop that runs
  out of draws has not completed (`none`).
* `machineStatus` and `completionPercentage` are only used by `machineStatusUpdate`, whose
  single call is commented out in the source; they are left out, with the printing members.
-/

namespace Enigma

/-- `const int ALPHLENGTH = 94;` -/
abbrev ALPHLENGTH : Nat := 94

/-- `const int NUMROTORS = 50;` -/
abbrev NUMROTORS : Nat := 50

/-- `const char CONST_ALPHABET[ALPHLENGTH]`, in the order of the source. -/
def CONST_ALPHABET : List Char :=
  ['A', 'B', 'C', 'D', 'E', 'F', 'G', 'H', 'I', 'J', 'K', 'L', 'M', 'N', 'O', 'P',
   'Q', 'R', 'S', 'T', 'U', 'V', 'W', 'X', 'Y', 'Z', 'a', 'b', 'c', 'd', 'e', 'f', 'g', 'h',
   'i', 'j', 'k', 'l', 'm', 'n', 'o', 'p', 'q', 'r', 's', 't', 'u', 'v', 'w', 'x', 'y', 'z',
   ' ', '1', '2', '3', '4', '5', '6', '7', '8', '9',
   '0', '!', '@', '#', '$', '%', '^', '&', '*', '(', ')', '_', '-', '+', '=', '\x7b', '|',
   '\\', '[', ']', '\x7d', ':',
   ';', '"', '\'', '?', '>', '/', '<', '.', ',', '\x60']

/-- An `int[ALPHLENGTH]` array. -/
abbrev Row : Type := Fin ALPHLENGTH → Int

/-- An `int[NUMROTORS][ALPHLENGTH]` array. -/
abbrev Bank : Type := Fin NUMROTORS → Row

/-- The ways in which a member function can go wrong. -/
inductive Fault where
  /-- A raw array subscript outside the array (undefined behaviour). -/
  | indexOutOfBounds (index : Int)
  /-- The `std::out_of_range` thrown by `std::string::at`. -/
  | outOfRange (pos : Int)
  deriving DecidableEq, Repr

/-- The data members of `class Machine`.  `scanMisses` is a ghost counter that the source does
not have: it counts the inner scans of `reflection` that ran through all columns without
reaching `break`.  No definition reads it. -/
structure Machine where
  plugBoard : Row
  rotors : Bank
  rotorsSet : Bank
  rotorStartingConfigurations : Bank
  reflector : Row
  reflectorSet : Row
  message : List Char
  length : Int
  messagePosition : Int
  scanMisses : Nat

/-- The constructor `Machine::Machine()`: every array entry is `-1`. -/
def Machine.new : Machine where
  plugBoard := fun _ => -1
  rotors := fun _ _ => -1
  rotorsSet := fun _ _ => -1
  rotorStartingConfigurations := fun _ _ => -1
  reflector := fun _ => -1
  reflectorSet := fun _ => -1
  message := []
  length := -1
  messagePosition := -1
  scanMisses := 0

/-- The column an `int` subscript denotes, when it is inside the array. -/
def column? (i : Int) : Option (Fin ALPHLENGTH) :=
  if h : 0 ≤ i ∧ i < (ALPHLENGTH : Int) then some ⟨i.toNat, by omega⟩ else none

/-- The read `a[i]` of an `int[ALPHLENGTH]` array at an `int` subscript. -/
def readAt (a : Row) (i : Int) : Except Fault Int :=
  match column? i with
  | some j => .ok (a j)
  | none => .error (.indexOutOfBounds i)

/-- The read `CONST_ALPHABET[i]` at an `int` subscript. -/
def alphabetAt (i : Int) : Except Fault Char :=
  if i < 0 then .error (.indexOutOfBounds i)
  else match CONST_ALPHABET.get? i.toNat with
    | some c => .ok c
    | none => .error (.indexOutOfBounds i)

/-- The store `a[i] = v` at a column. -/
def setAt (a : Row) (i : Fin ALPHLENGTH) (v : Int) : Row :=
  fun j => if j = i then v else a j

/-- The store `a[r][i] = v`. -/
def setAt2 (a : Bank) (r : Fin NUMROTORS) (i : Fin ALPHLENGTH) (v : Int) : Bank :=
  fun q => if q = r then setAt (a q) i v else a q

/-- The loop of `letterToNum` from column `i` on, over the rest of the alphabet. -/
def letterToNumFrom (letter : Char) : List Char → Nat → Int
  | [], _ => -1
  | c :: cs, i => if letter = c then (i : Int) else letterToNumFrom letter cs (i + 1)

/-- `Machine::letterToNum`: the first column of `CONST_ALPHABET` holding `letter`, `-1` when
there is none. -/
def letterToNum (letter : Char) : Int :=
  letterToNumFrom letter CONST_ALPHABET 0

/-- `CONST_ALPHABET[ALPHLENGTH - 1 - i]` for a column `i`; the subscript is inside the array. -/
def mirrorSymbol (i : Fin ALPHLENGTH) : Char :=
  CONST_ALPHABET.getD (ALPHLENGTH - 1 - i.val) 'A'

/-- `Machine::mapPlugBoard`. -/
def mapPlugBoard (m : Machine) : Machine :=
  { m with plugBoard := fun i => letterToNum (mirrorSymbol i) }

/-- `Machine::plugBoardAssign`. -/
def plugBoardAssign (m : Machine) (letter : Int) : Except Fault Int :=
  readAt m.plugBoard letter

/-- The assignment of `advanceRotors` to one entry. -/
def advanceEntry (v : Int) : Int :=
  if v + 1 > (ALPHLENGTH : Int) - 1 then 0 else v + 1

/-- `Machine::advanceRotors`. -/
def advanceRotors (m : Machine) : Machine :=
  { m with rotors := fun i j => advanceEntry (m.rotors i j) }

/-- `Machine::resetRotors`. -/
def resetRotors (m : Machine) : Machine :=
  { m with rotors := fun i j => m.rotorStartingConfigurations i j }

/-- `Machine::encryptLetter`: through rotor 0, rotor 1, ... in turn. -/
def encryptLetter (m : Machine) (letter : Int) : Except Fault Int :=
  (List.finRange NUMROTORS).foldlM (fun l i => readAt (m.rotors i) l) letter

/-- The inner loop of `reflection` on one rotor: the first column holding `letter`. -/
def scanRotor? (rotor : Row) (letter : Int) : Option (Fin ALPHLENGTH) :=
  (List.finRange ALPHLENGTH).find? (fun j => rotor j == letter)

/-- One round of the outer loop of `reflection`: `letter` becomes the column found; it stays
as it is, and one miss is counted, when the scan ends without `break`. -/
def reverseStep (rotors : Bank) (s : Int × Nat) (i : Fin NUMROTORS) : Int × Nat :=
  match scanRotor? (rotors i) s.1 with
  | some j => ((j.val : Int), s.2)
  | none => (s.1, s.2 + 1)

/-- The rotor loop of `reflection`, from rotor `NUMROTORS - 1` down to rotor 0, with the
number of scans that missed. -/
def reverseRotors (rotors : Bank) (letter : Int) : Int × Nat :=
  (List.finRange NUMROTORS).reverse.foldl (reverseStep rotors) (letter, 0)

/-- `Machine::reflection`, with the number of scans that missed. -/
def reflection (m : Machine) (letter : Int) : Except Fault (Int × Nat) := do
  let letter ← readAt m.reflector letter
  pure (reverseRotors m.rotors letter)

/-- `message.at(pos)` as a read. -/
def stringAt (s : List Char) (pos : Int) : Except Fault Char :=
  if pos < 0 then .error (.outOfRange pos)
  else match s.get? pos.toNat with
    | some c => .ok c
    | none => .error (.outOfRange pos)

/-- The body of the loop of `encryptLetters`, at `messagePosition`. -/
def encryptBody (m : Machine) : Except Fault Machine := do
  let m := advanceRotors m
  let c ← stringAt m.message m.messagePosition
  let letter := letterToNum c
  let letter ← plugBoardAssign m letter
  let letter ← encryptLetter m letter
  let (letter, misses) ← reflection m letter
  let letter ← plugBoardAssign m letter
  let out ← alphabetAt letter
  pure { m with message := m.message.set m.messagePosition.toNat out,
                scanMisses := m.scanMisses + misses }

/-- What the body of the loop of `encryptLetters` does to one character `c`, between the read
`message.at(messagePosition)` and the store of the result: the character stored and the number
of scans that missed. -/
def encryptSymbol (m : Machine) (c : Char) : Except Fault (Char × Nat) := do
  let letter := letterToNum c
  let letter ← plugBoardAssign m letter
  let letter ← encryptLetter m letter
  let (letter, misses) ← reflection m letter
  let letter ← plugBoardAssign m letter
  let out ← alphabetAt letter
  pure (out, misses)

/-- The loop of `encryptLetters` with `n` rounds left; the body changes neither `length` nor
`messagePosition`, so the loop started at position 0 runs `length` rounds (none when
`length ≤ 0`). -/
def encryptLoop : Nat → Machine → Except Fault Machine
  | 0, m => .ok m
  | n + 1, m => do
    let m ← encryptBody m
    encryptLoop n { m with messagePosition := m.messagePosition + 1 }

/-- `Machine::encryptLetters`. -/
def encryptLetters (m : Machine) : Except Fault Machine :=
  encryptLoop m.length.toNat { m with messagePosition := 0 }

/-- `Machine::promptMessage`, the line read being `line`; a line is shorter than `2 ^ 31`
characters, so that `int length` holds its length. -/
def promptMessage (m : Machine) (line : List Char) : Machine :=
  { m with message := line, length := (line.length : Int) }

/-- The draw `rand() % ALPHLENGTH`, for the value `r` that `rand()` returns. -/
def drawColumn (r : Nat) : Fin ALPHLENGTH :=
  ⟨r % ALPHLENGTH, Nat.mod_lt r (by decide)⟩

/-- The `while (rotorsSet[i][k] != -1) k = rand() % ALPHLENGTH;` of `initRotors`, on the row
`rotorsSet[i]`: the accepted `k` and the draws left, `none` when the draws run out first. -/
def drawUnused (set : Row) : List Nat → Fin ALPHLENGTH → Option (Fin ALPHLENGTH × List Nat)
  | [], k => if set k ≠ -1 then none else some (k, [])
  | r :: rs, k => if set k ≠ -1 then drawUnused set rs (drawColumn r) else some (k, r :: rs)

/-- The body of the inner loop of `initRotors`, for rotor `i` and column `j`. -/
def initRotorsBody (i : Fin NUMROTORS) (s : Machine × List Nat) (j : Fin ALPHLENGTH) :
    Option (Machine × List Nat) :=
  match s.2 with
  | [] => none
  | r :: rs =>
    if s.1.rotors i j = -1 then
      match drawUnused (s.1.rotorsSet i) rs (drawColumn r) with
      | none => none
      | some (k, rest) =>
        some ({ s.1 with
                rotorsSet := setAt2 s.1.rotorsSet i k 1
                rotors := setAt2 s.1.rotors i j (k.val : Int)
                rotorStartingConfigurations :=
                  setAt2 s.1.rotorStartingConfigurations i j (k.val : Int) }, rest)
    else some (s.1, rs)

/-- The inner loop of `initRotors`, for rotor `i`. -/
def initRotor (s : Machine × List Nat) (i : Fin NUMROTORS) : Option (Machine × List Nat) :=
  (List.finRange ALPHLENGTH).foldlM (initRotorsBody i) s

/-- `Machine::initRotors` on the draws `draws`: the machine and the draws left. -/
def initRotors (m : Machine) (draws : List Nat) : Option (Machine × List Nat) :=
  (List.finRange NUMROTORS).foldlM initRotor (m, draws)

/-- The `int k = rand() % ALPHLENGTH; while (i == k || reflectorSet[k] != -1 ||
reflectorSet[i] != -1) k = rand() % ALPHLENGTH;` of `initReflector`: the accepted `k` and the
draws left, `none` when the draws run out first. -/
def drawPartner (set : Row) (i : Fin ALPHLENGTH) : List Nat → Option (Fin ALPHLENGTH × List Nat)
  | [] => none
  | r :: rs =>
    if i = drawColumn r ∨ set (drawColumn r) ≠ -1 ∨ set i ≠ -1 then drawPartner set i rs
    else some (drawColumn r, rs)

/-- The body of the loop of `initReflector`, for column `i`. -/
def initReflectorBody (s : Machine × List Nat) (i : Fin ALPHLENGTH) :
    Option (Machine × List Nat) :=
  if s.1.reflector i = -1 then
    match drawPartner s.1.reflectorSet i s.2 with
    | none => none
    | some (k, rest) =>
      some ({ s.1 with
              reflector := setAt (setAt s.1.reflector i (k.val : Int)) k (i.val : Int)
              reflectorSet := setAt (setAt s.1.reflectorSet k 1) i 1 }, rest)
  else some s

/-- `Machine::initReflector` on the draws `draws`: the machine and the draws left. -/
def initReflector (m : Machine) (draws : List Nat) : Option (Machine × List Nat) :=
  (List.finRange ALPHLENGTH).foldlM initReflectorBody (m, draws)

/-! ## The vocabulary of the properties -/

/-- Every entry of the array lies in `[0, ALPHLENGTH)`. -/
def InRange (a : Row) : Prop :=
  ∀ j, 0 ≤ a j ∧ a j < (ALPHLENGTH : Int)

/-- The array is a permutation of `[0, ALPHLENGTH)`: entries in range, no value twice. -/
def IsPermutation (a : Row) : Prop :=
  InRange a ∧ Function.Injective a

/-- The array is an involution on `[0, ALPHLENGTH)`: `a[i]` is a column and `a[a[i]] == i`. -/
def IsInvolution (a : Row) : Prop :=
  ∀ i : Fin ALPHLENGTH, ∃ k : Fin ALPHLENGTH, a i = (k.val : Int) ∧ a k = (i.val : Int)

/-- The array is an involution without a fixed point. -/
def IsFixedPointFreeInvolution (a : Row) : Prop :=
  ∀ i : Fin ALPHLENGTH, ∃ k : Fin ALPHLENGTH, a i = (k.val : Int) ∧ a k = (i.val : Int) ∧ k ≠ i

/-- Every character of the text is in `CONST_ALPHABET`. -/
def InAlphabet (s : List Char) : Prop :=
  ∀ c ∈ s, c ∈ CONST_ALPHABET

instance (a : Row) : Decidable (InRange a) := by unfold InRange; infer_instance

instance (a : Row) : Decidable (IsPermutation a) := by
  unfold IsPermutation Function.Injective; infer_instance

instance (a : Row) : Decidable (IsInvolution a) := by unfold IsInvolution; infer_instance

instance (a : Row) : Decidable (IsFixedPointFreeInvolution a) := by
  unfold IsFixedPointFreeInvolution; infer_instance

instance (s : List Char) : Decidable (InAlphabet s) := by unfold InAlphabet; infer_instance

/-- The symbol `CONST_ALPHABET[j]` of a column. -/
def symbolAt (j : Fin ALPHLENGTH) : Char :=
  CONST_ALPHABET.get ⟨j.val, lt_of_lt_of_eq j.isLt (by decide)⟩

/-- The machine is ready to process text: every rotor is a permutation of
`[0, ALPHLENGTH)`, the reflector and the plugboard hold columns. -/
def Sound (m : Machine) : Prop :=
  (∀ i, IsPermutation (m.rotors i)) ∧ InRange m.reflector ∧ InRange m.plugBoard

/-- The character that the body of the loop of `encryptLetters` stores for `c` on the
(already advanced) machine `m`; `c` itself when the body faults. -/
def symbolOut (m : Machine) (c : Char) : Char :=
  match encryptSymbol m c with
  | .ok (out, _) => out
  | .error _ => c

/-- The text that the loop of `encryptLetters` makes of `s`, entered on `m`: the rotors
advance before every character, the first included. -/
def cipherText (m : Machine) : List Char → List Char
  | [] => []
  | c :: cs => symbolOut (advanceRotors m) c :: cipherText (advanceRotors m) cs

/-- What holds of the reflector between two rounds of the loop of `initReflector`: a column
is unassigned in `reflector` exactly when it is in `reflectorSet`, and the assigned columns
are paired, no column with itself. -/
def ReflectorPaired (m : Machine) : Prop :=
  (∀ x, m.reflector x = -1 ↔ m.reflectorSet x = -1) ∧
  (∀ x, m.reflector x ≠ -1 →
    ∃ k : Fin ALPHLENGTH, m.reflector x = (k.val : Int) ∧ m.reflector k = (x.val : Int) ∧ k ≠ x)

/-- What holds of rotor `q` between two rounds of the loops of `initRotors`: a value held by
a column is marked in `rotorsSet`, the assigned columns hold values of `[0, ALPHLENGTH)`,
no two of them the same, and `rotorStartingConfigurations` is a copy of `rotors`. -/
def RotorPartial (m : Machine) (q : Fin NUMROTORS) : Prop :=
  (∀ c (v : Fin ALPHLENGTH), m.rotors q c = (v.val : Int) → m.rotorsSet q v ≠ -1) ∧
  (∀ c, m.rotors q c ≠ -1 → 0 ≤ m.rotors q c ∧ m.rotors q c < (ALPHLENGTH : Int)) ∧
  (∀ c c', m.rotors q c ≠ -1 → m.rotors q c = m.rotors q c' → c = c') ∧
  (∀ c, m.rotorStartingConfigurations q c = m.rotors q c)

/-- The machine that `initRotors` has reached from the constructor's state when every draw
so far was the column being assigned: rotors below `i`, and the columns below `j` of rotor
`i`, hold their own column number. -/
def builtRotors (i j : Nat) : Machine :=
  { Machine.new with
    rotors := fun q c => if q.val < i ∨ (q.val = i ∧ c.val < j) then (c.val : Int) else -1
    rotorsSet := fun q c => if q.val < i ∨ (q.val = i ∧ c.val < j) then 1 else -1
    rotorStartingConfigurations :=
      fun q c => if q.val < i ∨ (q.val = i ∧ c.val < j) then (c.val : Int) else -1 }

/-- Draws to try `initRotors` on: for every rotor, the columns in order. -/
def sampleDraws : List Nat :=
  (List.replicate NUMROTORS (List.range ALPHLENGTH)).flatten

/-- The state in which `initRotors`, started on the constructor's machine with the draws
`draws`, enters the body of its inner loop for rotor `i` and column `j`: rotors below `i`
are done, and so are the columns below `j` of rotor `i`. -/
def rotorLoopEntry (draws : List Nat) (i : Fin NUMROTORS) (j : Fin ALPHLENGTH) :
    Option (Machine × List Nat) :=
  (((List.finRange NUMROTORS).take i.val).foldlM initRotor (Machine.new, draws)).bind
    (fun s => ((List.finRange ALPHLENGTH).take j.val).foldlM (initRotorsBody i) s)

/-- The state in which `initReflector`, started on the constructor's machine with the draws
`draws`, enters the body of its loop for column `i`. -/
def reflectorLoopEntry (draws : List Nat) (i : Fin ALPHLENGTH) : Option (Machine × List Nat) :=
  ((List.finRange ALPHLENGTH).take i.val).foldlM initReflectorBody (Machine.new, draws)

/-- What holds of `rotorsSet` between two rounds of the loops of `initRotors`: a value marked
for rotor `q` is held by a column of rotor `q`. -/
def RotorMarked (m : Machine) : Prop :=
  ∀ (q : Fin NUMROTORS) (v : Fin ALPHLENGTH), m.rotorsSet q v ≠ -1 →
    ∃ c, m.rotors q c = (v.val : Int)

/-- The machine with its rotors advanced `n` times. -/
def advanceN (n : Nat) (m : Machine) : Machine :=
  advanceRotors^[n] m

/-- A machine to try things on: rotor `i` maps column `j` to `(j + i) % ALPHLENGTH`, the
reflector pairs `j` with `(j + 47) % ALPHLENGTH`, the plugboard is mapped. -/
def sampleMachine : Machine :=
  mapPlugBoard { Machine.new with
    rotors := fun i j => (((j.val + i.val) % ALPHLENGTH : Nat) : Int)
    rotorStartingConfigurations := fun i j => (((j.val + i.val) % ALPHLENGTH : Nat) : Int)
    reflector := fun j => (((j.val + 47) % ALPHLENGTH : Nat) : Int) }

/-- The text that `encryptLetters` has left in `message`, when it returned. -/
def textOf (r : Except Fault Machine) : Option (List Char) :=
  match r with
  | .ok m => some m.message
  | .error _ => none

/-! ## Reads and the alphabet -/

theorem column?_val (j : Fin ALPHLENGTH) : column? (j.val : Int) = some j := by
  unfold column?
  have h : 0 ≤ (j.val : Int) ∧ (j.val : Int) < (ALPHLENGTH : Int) := by
    have := j.isLt
    omega
  rw [dif_pos h]
  simp

theorem column?_of_inRange {i : Int} (h0 : 0 ≤ i) (h1 : i < (ALPHLENGTH : Int)) :
    ∃ j : Fin ALPHLENGTH, i = (j.val : Int) ∧ column? i = some j := by
  refine ⟨⟨i.toNat, by omega⟩, ?_, ?_⟩
  · simp [Int.toNat_of_nonneg h0]
  · unfold column?
    rw [dif_pos ⟨h0, h1⟩]

theorem column?_eq_none {i : Int} (h : i < 0 ∨ (ALPHLENGTH : Int) ≤ i) : column? i = none := by
  unfold column?
  rw [dif_neg (by omega)]

theorem readAt_val (a : Row) (j : Fin ALPHLENGTH) : readAt a (j.val : Int) = .ok (a j) := by
  unfold readAt
  rw [column?_val]

theorem alphabet_length : CONST_ALPHABET.length = ALPHLENGTH := by decide

theorem alphabet_nodup : CONST_ALPHABET.Nodup := by decide

set_option maxRecDepth 100000 in
theorem letterToNum_symbolAt :
    ∀ j : Fin ALPHLENGTH, letterToNum (symbolAt j) = (j.val : Int) := by
  decide

set_option maxRecDepth 100000 in
theorem letterToNum_mirrorSymbol :
    ∀ j : Fin ALPHLENGTH, letterToNum (mirrorSymbol j) = 93 - (j.val : Int) := by
  decide

theorem symbolAt_mem (j : Fin ALPHLENGTH) : symbolAt j ∈ CONST_ALPHABET :=
  List.get_mem _ _ _

theorem exists_symbolAt_of_mem {c : Char} (h : c ∈ CONST_ALPHABET) :
    ∃ j : Fin ALPHLENGTH, symbolAt j = c := by
  obtain ⟨n, hn⟩ := List.get_of_mem h
  exact ⟨⟨n.val, lt_of_lt_of_eq n.isLt alphabet_length⟩, hn⟩

theorem alphabetAt_val (j : Fin ALPHLENGTH) : alphabetAt (j.val : Int) = .ok (symbolAt j) := by
  unfold alphabetAt symbolAt
  have h : ¬ ((j.val : Int) < 0) := by omega
  rw [if_neg h]
  simp only [Int.toNat_ofNat]
  rw [List.get?_eq_get (lt_of_lt_of_eq j.isLt alphabet_length.symm)]

/-! ## One rotor: advancement and the inverse lookup -/

theorem alphlength_cast : ((ALPHLENGTH : Nat) : Int) = 94 := rfl

theorem advanceEntry_eq_mod {v : Int} (h0 : 0 ≤ v) (h1 : v < (ALPHLENGTH : Int)) :
    advanceEntry v = (v + 1) % (ALPHLENGTH : Int) := by
  unfold advanceEntry
  rw [alphlength_cast] at *
  split <;> omega

theorem advanceEntry_inRange {v : Int} (h0 : 0 ≤ v) (h1 : v < (ALPHLENGTH : Int)) :
    0 ≤ advanceEntry v ∧ advanceEntry v < (ALPHLENGTH : Int) := by
  unfold advanceEntry
  rw [alphlength_cast] at *
  split <;> omega

theorem advanceEntry_inj {v w : Int} (hv0 : 0 ≤ v) (hv1 : v < (ALPHLENGTH : Int))
    (hw0 : 0 ≤ w) (hw1 : w < (ALPHLENGTH : Int)) (h : advanceEntry v = advanceEntry w) :
    v = w := by
  unfold advanceEntry at h
  rw [alphlength_cast] at *
  split at h <;> split at h <;> omega

theorem IsPermutation.advance {r : Row} (h : IsPermutation r) :
    IsPermutation (fun j => advanceEntry (r j)) := by
  refine ⟨fun j => advanceEntry_inRange (h.1 j).1 (h.1 j).2, fun a b hab => ?_⟩
  exact h.2 (advanceEntry_inj (h.1 a).1 (h.1 a).2 (h.1 b).1 (h.1 b).2 hab)

theorem scanRotor?_sound {r : Row} {x : Int} {j : Fin ALPHLENGTH}
    (h : scanRotor? r x = some j) : r j = x := by
  unfold scanRotor? at h
  have := List.find?_some h
  simpa using this

theorem scanRotor?_of_mem {r : Row} {x : Int} {j : Fin ALPHLENGTH} (hj : r j = x) :
    ∃ k, scanRotor? r x = some k := by
  unfold scanRotor?
  cases hf : (List.finRange ALPHLENGTH).find? (fun j => r j == x) with
  | some k => exact ⟨k, rfl⟩
  | none =>
    rw [List.find?_eq_none] at hf
    have := hf j (List.mem_finRange j)
    simp [hj] at this

theorem scanRotor?_apply {r : Row} (hinj : Function.Injective r) (j : Fin ALPHLENGTH) :
    scanRotor? r (r j) = some j := by
  obtain ⟨k, hk⟩ := scanRotor?_of_mem (r := r) (x := r j) (j := j) rfl
  rw [hk, hinj (scanRotor?_sound hk)]

theorem IsPermutation.surj {r : Row} (h : IsPermutation r) (x : Fin ALPHLENGTH) :
    ∃ j : Fin ALPHLENGTH, r j = (x.val : Int) := by
  let g : Fin ALPHLENGTH → Fin ALPHLENGTH := fun j =>
    ⟨(r j).toNat, by have := h.1 j; omega⟩
  have hg : Function.Injective g := by
    intro a b hab
    apply h.2
    have h1 : (r a).toNat = (r b).toNat := congrArg Fin.val hab
    have ha := h.1 a
    have hb := h.1 b
    omega
  obtain ⟨j, hj⟩ := (Finite.injective_iff_surjective.mp hg) x
  refine ⟨j, ?_⟩
  have h1 : (r j).toNat = x.val := congrArg Fin.val hj
  have ha := h.1 j
  omega

theorem scanRotor?_of_perm {r : Row} (h : IsPermutation r) (x : Fin ALPHLENGTH) :
    ∃ j : Fin ALPHLENGTH, scanRotor? r (x.val : Int) = some j ∧ r j = (x.val : Int) := by
  obtain ⟨j, hj⟩ := h.surj x
  exact ⟨j, by rw [← hj]; exact scanRotor?_apply h.2 j, hj⟩

theorem InRange.exists_column {a : Row} (h : InRange a) (j : Fin ALPHLENGTH) :
    ∃ k : Fin ALPHLENGTH, a j = (k.val : Int) := by
  obtain ⟨k, hk, _⟩ := column?_of_inRange (h j).1 (h j).2
  exact ⟨k, hk⟩

/-! ## The rotor bank: forward and reverse pass -/

theorem bind_ok {α β : Type} (a : α) (f : α → Except Fault β) :
    (Except.ok a >>= f) = f a := rfl

theorem encryptBody_eq (m : Machine) :
    encryptBody m = (do
      let c ← stringAt m.message m.messagePosition
      let r ← encryptSymbol (advanceRotors m) c
      pure { advanceRotors m with
             message := m.message.set m.messagePosition.toNat r.1,
             scanMisses := m.scanMisses + r.2 }) := by
  unfold encryptBody encryptSymbol
  simp only [bind_assoc, pure_bind]
  rfl

theorem forward_reverse (rotors : Bank) (is : List (Fin NUMROTORS))
    (h : ∀ i ∈ is, IsPermutation (rotors i)) (n : Nat) (x : Fin ALPHLENGTH) :
    ∃ y : Fin ALPHLENGTH,
      is.foldlM (fun l i => readAt (rotors i) l) (x.val : Int) = .ok (y.val : Int) ∧
      is.reverse.foldl (reverseStep rotors) ((y.val : Int), n) = ((x.val : Int), n) := by
  induction is generalizing x with
  | nil => exact ⟨x, rfl, rfl⟩
  | cons i is ih =>
    obtain ⟨x1, hx1⟩ := (h i (List.mem_cons_self _ _)).1.exists_column x
    obtain ⟨y, hy1, hy2⟩ := ih (fun k hk => h k (List.mem_cons_of_mem _ hk)) x1
    refine ⟨y, ?_, ?_⟩
    · rw [List.foldlM_cons, readAt_val, bind_ok, hx1, hy1]
    · rw [List.reverse_cons, List.foldl_append, hy2, List.foldl_cons, List.foldl_nil]
      unfold reverseStep
      simp only
      rw [← hx1, scanRotor?_apply (h i (List.mem_cons_self _ _)).2]

theorem reverse_forward (rotors : Bank) (is : List (Fin NUMROTORS))
    (h : ∀ i ∈ is, IsPermutation (rotors i)) (n : Nat) (y : Fin ALPHLENGTH) :
    ∃ x : Fin ALPHLENGTH,
      is.reverse.foldl (reverseStep rotors) ((y.val : Int), n) = ((x.val : Int), n) ∧
      is.foldlM (fun l i => readAt (rotors i) l) (x.val : Int) = .ok (y.val : Int) := by
  induction is with
  | nil => exact ⟨y, rfl, rfl⟩
  | cons i is ih =>
    obtain ⟨x1, hx1, hx2⟩ := ih (fun k hk => h k (List.mem_cons_of_mem _ hk))
    obtain ⟨x, hs, hx⟩ := scanRotor?_of_perm (h i (List.mem_cons_self _ _)) x1
    refine ⟨x, ?_, ?_⟩
    · rw [List.reverse_cons, List.foldl_append, hx1, List.foldl_cons, List.foldl_nil]
      unfold reverseStep
      simp only
      rw [hs]
    · rw [List.foldlM_cons, readAt_val, bind_ok, hx, hx2]

/-! ## One symbol -/

theorem encryptSymbol_eq (m : Machine) (x p f r g q : Fin ALPHLENGTH) (k : Nat)
    (hp : m.plugBoard x = (p.val : Int)) (hf : encryptLetter m (p.val : Int) = .ok (f.val : Int))
    (hr : m.reflector f = (r.val : Int))
    (hg : reverseRotors m.rotors (r.val : Int) = ((g.val : Int), k))
    (hq : m.plugBoard g = (q.val : Int)) :
    encryptSymbol m (symbolAt x) = .ok (symbolAt q, k) := by
  unfold encryptSymbol plugBoardAssign reflection
  simp only [letterToNum_symbolAt, readAt_val, bind_ok, hp, hf, hr, hg, pure, Except.pure,
    hq, alphabetAt_val]

theorem encryptLetter_inverse (m : Machine) (h : ∀ i, IsPermutation (m.rotors i)) (n : Nat)
    (x : Fin ALPHLENGTH) :
    ∃ y : Fin ALPHLENGTH, encryptLetter m (x.val : Int) = .ok (y.val : Int) ∧
      (List.finRange NUMROTORS).reverse.foldl (reverseStep m.rotors) ((y.val : Int), n)
        = ((x.val : Int), n) :=
  forward_reverse m.rotors (List.finRange NUMROTORS) (fun i _ => h i) n x

theorem reverseRotors_inverse (m : Machine) (h : ∀ i, IsPermutation (m.rotors i))
    (y : Fin ALPHLENGTH) :
    ∃ x : Fin ALPHLENGTH, reverseRotors m.rotors (y.val : Int) = ((x.val : Int), 0) ∧
      encryptLetter m (x.val : Int) = .ok (y.val : Int) :=
  reverse_forward m.rotors (List.finRange NUMROTORS) (fun i _ => h i) 0 y

/-- On a machine whose rotors are permutations and whose reflector and plugboard hold
columns, a symbol of the alphabet is enciphered into one, every scan hitting. -/
theorem encryptSymbol_ok (m : Machine) (hrot : ∀ i, IsPermutation (m.rotors i))
    (hrefl : InRange m.reflector) (hplug : InRange m.plugBoard) (x : Fin ALPHLENGTH) :
    ∃ y : Fin ALPHLENGTH, encryptSymbol m (symbolAt x) = .ok (symbolAt y, 0) := by
  obtain ⟨p, hp⟩ := hplug.exists_column x
  obtain ⟨f, hf, _⟩ := encryptLetter_inverse m hrot 0 p
  obtain ⟨r, hr⟩ := hrefl.exists_column f
  obtain ⟨g, hg, _⟩ := reverseRotors_inverse m hrot r
  obtain ⟨q, hq⟩ := hplug.exists_column g
  exact ⟨q, encryptSymbol_eq m x p f r g q 0 hp hf hr hg hq⟩

theorem val_inj {a b : Fin ALPHLENGTH} (h : (a.val : Int) = (b.val : Int)) : a = b :=
  Fin.ext (by omega)

theorem IsInvolution.inRange {a : Row} (h : IsInvolution a) : InRange a := by
  intro j
  obtain ⟨k, hk, _⟩ := h j
  rw [hk, alphlength_cast]
  have : k.val < 94 := k.isLt
  omega

theorem IsInvolution.apply {a : Row} (h : IsInvolution a) {i k : Fin ALPHLENGTH}
    (hk : a i = (k.val : Int)) : a k = (i.val : Int) := by
  obtain ⟨k1, h1, h2⟩ := h i
  have : k = k1 := val_inj (hk.symm.trans h1)
  rw [this, h2]

/-- With an involutive reflector and an involutive plugboard, enciphering the result of a
symbol on the same machine gives the symbol back. -/
theorem encryptSymbol_involutive (m : Machine) (hrot : ∀ i, IsPermutation (m.rotors i))
    (hrefl : IsInvolution m.reflector) (hplug : IsInvolution m.plugBoard)
    (x : Fin ALPHLENGTH) :
    ∃ y : Fin ALPHLENGTH, encryptSymbol m (symbolAt x) = .ok (symbolAt y, 0) ∧
      encryptSymbol m (symbolAt y) = .ok (symbolAt x, 0) := by
  obtain ⟨p, hp⟩ := hplug.inRange.exists_column x
  obtain ⟨f, hf, hf2⟩ := encryptLetter_inverse m hrot 0 p
  obtain ⟨r, hr⟩ := hrefl.inRange.exists_column f
  obtain ⟨g, hg, hg2⟩ := reverseRotors_inverse m hrot r
  obtain ⟨q, hq⟩ := hplug.inRange.exists_column g
  refine ⟨q, encryptSymbol_eq m x p f r g q 0 hp hf hr hg hq, ?_⟩
  exact encryptSymbol_eq m q g r f p x 0 (hplug.apply hq) hg2 (hrefl.apply hr) hf2
    (hplug.apply hp)

/-! ## The loop of `encryptLetters` -/

theorem encryptSymbol_congr {m m' : Machine} (h1 : m.rotors = m'.rotors)
    (h2 : m.plugBoard = m'.plugBoard) (h3 : m.reflector = m'.reflector) (c : Char) :
    encryptSymbol m c = encryptSymbol m' c := by
  unfold encryptSymbol plugBoardAssign encryptLetter reflection
  rw [h1, h2, h3]

theorem cipherText_congr (s : List Char) : ∀ {m m' : Machine}, m.rotors = m'.rotors →
    m.plugBoard = m'.plugBoard → m.reflector = m'.reflector →
    cipherText m s = cipherText m' s := by
  induction s with
  | nil => intros; rfl
  | cons c cs ih =>
    intro m m' h1 h2 h3
    have hr : (advanceRotors m).rotors = (advanceRotors m').rotors := by
      show (fun i j => advanceEntry (m.rotors i j)) = fun i j => advanceEntry (m'.rotors i j)
      rw [h1]
    have hs : encryptSymbol (advanceRotors m) c = encryptSymbol (advanceRotors m') c :=
      encryptSymbol_congr hr h2 h3 c
    show symbolOut (advanceRotors m) c :: cipherText (advanceRotors m) cs
      = symbolOut (advanceRotors m') c :: cipherText (advanceRotors m') cs
    unfold symbolOut
    rw [hs, ih hr h2 h3]

theorem Sound.step {m : Machine} (h : Sound m) : Sound (advanceRotors m) :=
  ⟨fun i => (h.1 i).advance, h.2.1, h.2.2⟩

theorem stringAt_append (done : List Char) (c : Char) (cs : List Char) :
    stringAt (done ++ c :: cs) (done.length : Int) = .ok c := by
  unfold stringAt
  have h : ¬ ((done.length : Int) < 0) := by omega
  rw [if_neg h, Int.toNat_ofNat, List.get?_eq_getElem?, List.getElem?_append_right (le_refl _)]
  simp

theorem set_append_cons (done : List Char) (c out : Char) (cs : List Char) :
    (done ++ c :: cs).set done.length out = (done ++ [out]) ++ cs := by
  induction done with
  | nil => rfl
  | cons d ds ih => simp [List.set, ih]

/-- The loop of `encryptLetters` on a ready machine whose text from `messagePosition` on is
`todo`, all of it in the alphabet: it returns, the text is replaced by `cipherText`, every
rotor entry has advanced once a character, no scan has missed, the rest is as it was. -/
theorem encryptLoop_spec (todo : List Char) : ∀ (m : Machine) (done : List Char),
    Sound m → m.message = done ++ todo → m.messagePosition = (done.length : Int) →
    InAlphabet todo →
    ∃ m', encryptLoop todo.length m = .ok m' ∧
      m'.message = done ++ cipherText m todo ∧
      m'.rotors = (fun i j => advanceEntry^[todo.length] (m.rotors i j)) ∧
      m'.plugBoard = m.plugBoard ∧ m'.reflector = m.reflector ∧
      m'.rotorStartingConfigurations = m.rotorStartingConfigurations ∧
      m'.rotorsSet = m.rotorsSet ∧ m'.reflectorSet = m.reflectorSet ∧
      m'.length = m.length ∧
      m'.messagePosition = m.messagePosition + (todo.length : Int) ∧
      m'.scanMisses = m.scanMisses := by
  induction todo with
  | nil =>
    intro m done _ hmsg _ _
    exact ⟨m, rfl, by rw [hmsg]; rfl, rfl, rfl, rfl, rfl, rfl, rfl, rfl, by simp, rfl⟩
  | cons c cs ih =>
    intro m done hs hmsg hpos halph
    obtain ⟨x, hx⟩ := exists_symbolAt_of_mem (halph c (List.mem_cons_self _ _))
    obtain ⟨y, hy⟩ := encryptSymbol_ok (advanceRotors m) hs.step.1 hs.step.2.1
      hs.step.2.2 x
    rw [hx] at hy
    have hout : symbolOut (advanceRotors m) c = symbolAt y := by
      unfold symbolOut
      rw [hy]
    have hbody : encryptBody m = .ok { advanceRotors m with
        message := (done ++ [symbolAt y]) ++ cs, scanMisses := m.scanMisses } := by
      rw [encryptBody_eq, hmsg, hpos, stringAt_append, bind_ok, hy, bind_ok]
      simp only [Int.toNat_ofNat, set_append_cons]
      rfl
    obtain ⟨m', h0, h1, h2, h3, h4, h5, h6, h7, h8, h9, h10⟩ :=
      ih { advanceRotors m with
            message := (done ++ [symbolAt y]) ++ cs, scanMisses := m.scanMisses,
            messagePosition := m.messagePosition + 1 } (done ++ [symbolAt y])
        hs.step rfl (by show m.messagePosition + 1 = _; rw [hpos]; simp)
        (fun d hd => halph d (List.mem_cons_of_mem _ hd))
    refine ⟨m', ?_, ?_, ?_, h3, h4, h5, h6, h7, h8, ?_, h10⟩
    · show (encryptBody m >>= fun m1 =>
        encryptLoop cs.length { m1 with messagePosition := m1.messagePosition + 1 }) = _
      rw [hbody, bind_ok]
      exact h0
    · rw [h1]
      show (done ++ [symbolAt y]) ++ _ = done ++ (symbolOut (advanceRotors m) c :: _)
      rw [hout, List.append_assoc]
      simp only [List.singleton_append, List.cons.injEq, true_and, List.append_cancel_left_eq]
      exact cipherText_congr cs rfl rfl rfl
    · rw [h2]
      funext i j
      show advanceEntry^[cs.length] (advanceEntry (m.rotors i j)) = _
      rw [List.length_cons, Function.iterate_succ_apply]
    · rw [h9]
      show m.messagePosition + 1 + _ = _
      rw [List.length_cons]
      push_cast
      omega

/-! ## `encryptLetters` and the text it produces -/

theorem encryptLetters_spec (m : Machine) (hs : Sound m)
    (hlen : m.length = (m.message.length : Int)) (ha : InAlphabet m.message) :
    ∃ m', encryptLetters m = .ok m' ∧
      m'.message = cipherText m m.message ∧
      m'.rotors = (fun i j => advanceEntry^[m.message.length] (m.rotors i j)) ∧
      m'.plugBoard = m.plugBoard ∧ m'.reflector = m.reflector ∧
      m'.rotorStartingConfigurations = m.rotorStartingConfigurations ∧
      m'.rotorsSet = m.rotorsSet ∧ m'.reflectorSet = m.reflectorSet ∧
      m'.length = m.length ∧
      m'.messagePosition = m.length ∧
      m'.scanMisses = m.scanMisses := by
  obtain ⟨m', h0, h1, h2, h3, h4, h5, h6, h7, h8, h9, h10⟩ :=
    encryptLoop_spec m.message { m with messagePosition := 0 } [] hs rfl rfl ha
  refine ⟨m', ?_, ?_, h2, h3, h4, h5, h6, h7, h8, ?_, h10⟩
  · unfold encryptLetters
    have hn : m.length.toNat = m.message.length := by rw [hlen, Int.toNat_ofNat]
    rw [hn]
    exact h0
  · rw [h1]
    exact cipherText_congr _ rfl rfl rfl
  · rw [h9, hlen]
    show (0 : Int) + _ = _
    omega

theorem cipherText_length (s : List Char) : ∀ m : Machine, (cipherText m s).length = s.length := by
  induction s with
  | nil => intro m; rfl
  | cons c cs ih =>
    intro m
    show (cipherText (advanceRotors m) cs).length + 1 = cs.length + 1
    rw [ih]

theorem cipherText_inAlphabet (s : List Char) : ∀ m : Machine, Sound m → InAlphabet s →
    InAlphabet (cipherText m s) := by
  induction s with
  | nil => intro m _ _ c hc; cases hc
  | cons c cs ih =>
    intro m hs ha d hd
    obtain ⟨x, hx⟩ := exists_symbolAt_of_mem (ha c (List.mem_cons_self _ _))
    obtain ⟨y, hy⟩ := encryptSymbol_ok (advanceRotors m) hs.step.1 hs.step.2.1
      hs.step.2.2 x
    rw [hx] at hy
    have hout : symbolOut (advanceRotors m) c = symbolAt y := by
      unfold symbolOut
      rw [hy]
    rcases List.mem_cons.mp hd with h | h
    · rw [h, hout]
      exact symbolAt_mem y
    · exact ih (advanceRotors m) hs.step (fun e he => ha e (List.mem_cons_of_mem _ he)) d h

theorem cipherText_involutive (s : List Char) : ∀ m : Machine,
    (∀ i, IsPermutation (m.rotors i)) → IsInvolution m.reflector → IsInvolution m.plugBoard →
    InAlphabet s → cipherText m (cipherText m s) = s := by
  induction s with
  | nil => intros; rfl
  | cons c cs ih =>
    intro m hrot hrefl hplug ha
    obtain ⟨x, hx⟩ := exists_symbolAt_of_mem (ha c (List.mem_cons_self _ _))
    obtain ⟨y, hy, hy2⟩ := encryptSymbol_involutive (advanceRotors m)
      (fun i => (hrot i).advance) hrefl hplug x
    rw [hx] at hy
    have hout : symbolOut (advanceRotors m) c = symbolAt y := by
      unfold symbolOut
      rw [hy]
    have hback : symbolOut (advanceRotors m) (symbolAt y) = c := by
      unfold symbolOut
      rw [hy2, hx]
    show symbolOut (advanceRotors m) (symbolOut (advanceRotors m) c)
      :: cipherText (advanceRotors m) (cipherText (advanceRotors m) cs) = c :: cs
    rw [hout, hback, ih (advanceRotors m) (fun i => (hrot i).advance) hrefl hplug
      (fun e he => ha e (List.mem_cons_of_mem _ he))]

/-! ## The plugboard -/

theorem mapPlugBoard_apply (m : Machine) (i : Fin ALPHLENGTH) :
    (mapPlugBoard m).plugBoard i = 93 - (i.val : Int) :=
  letterToNum_mirrorSymbol i

theorem mapPlugBoard_involution (m : Machine) : IsInvolution (mapPlugBoard m).plugBoard := by
  intro i
  have hi : i.val < 94 := i.isLt
  refine ⟨⟨93 - i.val, by show 93 - i.val < 94; omega⟩, ?_, ?_⟩
  · rw [mapPlugBoard_apply]
    show 93 - (i.val : Int) = ((93 - i.val : Nat) : Int)
    omega
  · rw [mapPlugBoard_apply]
    show 93 - ((93 - i.val : Nat) : Int) = (i.val : Int)
    omega

/-! ## The sample machine -/

theorem sampleMachine_rotors (i : Fin NUMROTORS) : IsPermutation (sampleMachine.rotors i) := by
  constructor
  · intro j
    show 0 ≤ (((j.val + i.val) % 94 : Nat) : Int) ∧ (((j.val + i.val) % 94 : Nat) : Int) < 94
    omega
  · intro a b h
    have h' : (((a.val + i.val) % 94 : Nat) : Int) = (((b.val + i.val) % 94 : Nat) : Int) := h
    have ha : a.val < 94 := a.isLt
    have hb : b.val < 94 := b.isLt
    exact Fin.ext (by omega)

theorem sampleMachine_reflector : IsFixedPointFreeInvolution sampleMachine.reflector := by
  intro i
  have hi : i.val < 94 := i.isLt
  refine ⟨⟨(i.val + 47) % 94, Nat.mod_lt _ (by decide)⟩, rfl, ?_, ?_⟩
  · show ((((i.val + 47) % 94 + 47) % 94 : Nat) : Int) = (i.val : Int)
    omega
  · intro h
    have : (i.val + 47) % 94 = i.val := congrArg Fin.val h
    omega

theorem IsFixedPointFreeInvolution.involution {a : Row} (h : IsFixedPointFreeInvolution a) :
    IsInvolution a := by
  intro i
  obtain ⟨k, h1, h2, _⟩ := h i
  exact ⟨k, h1, h2⟩

/-! ## Processing a text: C1, C3, C5 to C9 -/

/-- C1, reciprocity: on a machine whose starting configurations are permutations of
`[0, ALPHLENGTH)`, whose reflector is an involution and whose plugboard has been mapped, for
a message `M` over the alphabet, `resetRotors; encryptLetters` returns, and a second
`resetRotors; encryptLetters` on the text it left returns with `message` equal to `M`. -/
theorem reciprocity (m : Machine) (M : List Char)
    (hrot : ∀ i, IsPermutation (m.rotorStartingConfigurations i))
    (hrefl : IsInvolution m.reflector) (hM : InAlphabet M) :
    ∃ m1 m2, encryptLetters (promptMessage (resetRotors (mapPlugBoard m)) M) = .ok m1 ∧
      encryptLetters (resetRotors m1) = .ok m2 ∧ m2.message = M := by
  have hplug := mapPlugBoard_involution m
  have hs0 : Sound (promptMessage (resetRotors (mapPlugBoard m)) M) :=
    ⟨hrot, hrefl.inRange, hplug.inRange⟩
  obtain ⟨m1, h0, h1, _, h3, h4, h5, _, _, h8, _, _⟩ :=
    encryptLetters_spec (promptMessage (resetRotors (mapPlugBoard m)) M) hs0 rfl hM
  have hrot1 : (resetRotors m1).rotors = m.rotorStartingConfigurations := by
    show (fun i j => m1.rotorStartingConfigurations i j) = _
    rw [h5]
    rfl
  have hs1 : Sound (resetRotors m1) := by
    refine ⟨?_, ?_, ?_⟩
    · rw [hrot1]
      exact hrot
    · show InRange m1.reflector
      rw [h4]
      exact hrefl.inRange
    · show InRange m1.plugBoard
      rw [h3]
      exact hplug.inRange
  have hlen1 : (resetRotors m1).length = ((resetRotors m1).message.length : Int) := by
    show m1.length = (m1.message.length : Int)
    rw [h8, h1, cipherText_length]
    rfl
  have ha1 : InAlphabet (resetRotors m1).message := by
    show InAlphabet m1.message
    rw [h1]
    exact cipherText_inAlphabet _ _ hs0 hM
  obtain ⟨m2, g0, g1, _⟩ := encryptLetters_spec (resetRotors m1) hs1 hlen1 ha1
  refine ⟨m1, m2, h0, g0, ?_⟩
  rw [g1]
  show cipherText (resetRotors m1) m1.message = M
  rw [h1]
  have hc : ∀ s, cipherText (resetRotors m1) s
      = cipherText (promptMessage (resetRotors (mapPlugBoard m)) M) s :=
    fun s => cipherText_congr s hrot1 h3 h4
  rw [hc]
  exact cipherText_involutive M _ hrot hrefl hplug hM

theorem reciprocity_witness :
    (∀ i, IsPermutation (sampleMachine.rotorStartingConfigurations i)) ∧
    IsInvolution sampleMachine.reflector ∧ InAlphabet ['H', 'e', 'l', 'l', 'o'] ∧
    ∃ m1 m2,
      encryptLetters (promptMessage (resetRotors (mapPlugBoard sampleMachine))
        ['H', 'e', 'l', 'l', 'o']) = .ok m1 ∧
      encryptLetters (resetRotors m1) = .ok m2 ∧ m2.message = ['H', 'e', 'l', 'l', 'o'] :=
  ⟨sampleMachine_rotors, sampleMachine_reflector.involution, by decide,
    reciprocity sampleMachine ['H', 'e', 'l', 'l', 'o'] sampleMachine_rotors
      sampleMachine_reflector.involution (by decide)⟩

theorem sampleMachine_plugBoard : IsInvolution sampleMachine.plugBoard := by
  unfold sampleMachine
  exact mapPlugBoard_involution _

/-- C3, no fault on a text over the alphabet: on a machine whose rotors are permutations of
`[0, ALPHLENGTH)` and whose reflector and plugboard hold columns, with `length` the length
of `message` and every character of `message` in the alphabet, `encryptLetters` returns
(every subscript it used was inside its array), the loop has run to `length`, and no scan
of `reflection` has ended without finding its column. -/
theorem encryptLetters_safe (m : Machine) (hrot : ∀ i, IsPermutation (m.rotors i))
    (hrefl : InRange m.reflector) (hplug : InRange m.plugBoard)
    (hlen : m.length = (m.message.length : Int)) (ha : InAlphabet m.message) :
    ∃ m', encryptLetters m = .ok m' ∧ m'.messagePosition = m.length ∧
      m'.scanMisses = m.scanMisses := by
  obtain ⟨m', h0, _, _, _, _, _, _, _, _, h9, h10⟩ :=
    encryptLetters_spec m ⟨hrot, hrefl, hplug⟩ hlen ha
  exact ⟨m', h0, h9, h10⟩

theorem encryptLetters_safe_witness :
    (∀ i, IsPermutation ((promptMessage sampleMachine ['E', 'n', 'i', 'g', 'm', 'a']).rotors i)) ∧
    InRange (promptMessage sampleMachine ['E', 'n', 'i', 'g', 'm', 'a']).reflector ∧
    InRange (promptMessage sampleMachine ['E', 'n', 'i', 'g', 'm', 'a']).plugBoard ∧
    (promptMessage sampleMachine ['E', 'n', 'i', 'g', 'm', 'a']).length
      = ((promptMessage sampleMachine ['E', 'n', 'i', 'g', 'm', 'a']).message.length : Int) ∧
    InAlphabet (promptMessage sampleMachine ['E', 'n', 'i', 'g', 'm', 'a']).message ∧
    ∃ m', encryptLetters (promptMessage sampleMachine ['E', 'n', 'i', 'g', 'm', 'a']) = .ok m' ∧
      m'.messagePosition = 6 ∧ m'.scanMisses = 0 :=
  ⟨sampleMachine_rotors, sampleMachine_reflector.involution.inRange,
    sampleMachine_plugBoard.inRange, rfl, by decide,
    encryptLetters_safe (promptMessage sampleMachine ['E', 'n', 'i', 'g', 'm', 'a'])
      sampleMachine_rotors sampleMachine_reflector.involution.inRange
      sampleMachine_plugBoard.inRange rfl (by decide)⟩

/-- C5, the reverse pass inverts the forward pass: when every rotor is a permutation of
`[0, ALPHLENGTH)`, for a column `x`, `encryptLetter` returns a letter and the rotor loop of
`reflection`, run on that letter over the same rotors, ends on `x` with every scan hitting. -/
theorem reverse_inverts_forward (m : Machine) (hrot : ∀ i, IsPermutation (m.rotors i))
    (x : Int) (h0 : 0 ≤ x) (h1 : x < (ALPHLENGTH : Int)) :
    ∃ y : Int, encryptLetter m x = .ok y ∧ reverseRotors m.rotors y = (x, 0) := by
  obtain ⟨j, hj, _⟩ := column?_of_inRange h0 h1
  obtain ⟨y, hy1, hy2⟩ := encryptLetter_inverse m hrot 0 j
  rw [hj]
  exact ⟨(y.val : Int), hy1, hy2⟩

theorem reverse_inverts_forward_witness :
    (∀ i, IsPermutation (sampleMachine.rotors i)) ∧ (0 : Int) ≤ 7 ∧
    (7 : Int) < (ALPHLENGTH : Int) ∧
    ∃ y : Int, encryptLetter sampleMachine 7 = .ok y ∧
      reverseRotors sampleMachine.rotors y = (7, 0) :=
  ⟨sampleMachine_rotors, by decide, by decide,
    reverse_inverts_forward sampleMachine sampleMachine_rotors 7 (by decide) (by decide)⟩

/-- C6, advancement is `+ 1` modulo `ALPHLENGTH`: when every rotor entry lies in
`[0, ALPHLENGTH)`, after `advanceRotors` the entry of rotor `r` at column `j` is the old
entry plus one, modulo `ALPHLENGTH`. -/
theorem advanceRotors_shift (m : Machine) (h : ∀ r, InRange (m.rotors r))
    (r : Fin NUMROTORS) (j : Fin ALPHLENGTH) :
    (advanceRotors m).rotors r j = (m.rotors r j + 1) % (ALPHLENGTH : Int) :=
  advanceEntry_eq_mod (h r j).1 (h r j).2

theorem advanceRotors_shift_witness :
    (∀ r, InRange (sampleMachine.rotors r)) ∧
    (advanceRotors sampleMachine).rotors 3 90
      = (sampleMachine.rotors 3 90 + 1) % (ALPHLENGTH : Int) :=
  ⟨fun r => (sampleMachine_rotors r).1,
    advanceRotors_shift sampleMachine (fun r => (sampleMachine_rotors r).1) 3 90⟩

/-- C8, the plugboard is an involution: after `mapPlugBoard`, for every column `i`,
`plugBoardAssign` returns a letter on `i` and returns `i` on that letter. -/
theorem plugBoard_involution (m : Machine) (i : Fin ALPHLENGTH) :
    ∃ k : Int, plugBoardAssign (mapPlugBoard m) (i.val : Int) = .ok k ∧
      plugBoardAssign (mapPlugBoard m) k = .ok (i.val : Int) := by
  obtain ⟨k, hk1, hk2⟩ := mapPlugBoard_involution m i
  refine ⟨(k.val : Int), ?_, ?_⟩
  · unfold plugBoardAssign
    rw [readAt_val, hk1]
  · unfold plugBoardAssign
    rw [readAt_val, hk2]

/-- C9, reset restores and is idempotent: after `resetRotors` every rotor entry is the entry
of `rotorStartingConfigurations`, whatever the rotors were, and a second `resetRotors` leaves
the state as the first one made it. -/
theorem resetRotors_restores (m : Machine) :
    (∀ r j, (resetRotors m).rotors r j = m.rotorStartingConfigurations r j) ∧
    resetRotors (resetRotors m) = resetRotors m :=
  ⟨fun _ _ => rfl, rfl⟩

theorem advanceEntry_ne (v : Int) : advanceEntry v ≠ v := by
  unfold advanceEntry
  rw [alphlength_cast]
  split <;> omega

set_option maxRecDepth 100000 in
/-- C7, a machine on which `AA` gives the same symbol twice: the sample machine has
permutations for rotors, a reflector that is an involution without fixed point and a mapped
plugboard, it is at its starting configuration, and `encryptLetters` turns `AA` into `vv`. -/
theorem avalanche_counterexample :
    (∀ i, IsPermutation (sampleMachine.rotors i)) ∧
    IsFixedPointFreeInvolution sampleMachine.reflector ∧
    sampleMachine.plugBoard = (mapPlugBoard sampleMachine).plugBoard ∧
    sampleMachine.rotors = sampleMachine.rotorStartingConfigurations ∧
    'A' ∈ CONST_ALPHABET ∧
    textOf (encryptLetters (promptMessage sampleMachine ['A', 'A'])) = some ['v', 'v'] :=
  ⟨sampleMachine_rotors, sampleMachine_reflector, rfl, rfl, by decide, by decide⟩

/-- C7 as amended: on a machine whose rotors are permutations of `[0, ALPHLENGTH)`, whose
reflector is an involution without fixed point and whose plugboard is mapped, for a symbol
`a` of the alphabet, `encryptLetters` turns `aa` into two symbols, the first being `a`
enciphered under the rotors advanced once and the second `a` enciphered under the rotors
advanced twice, and no entry of the rotors is the same in these two settings. -/
theorem avalanche_settings_differ (m : Machine) (a : Char)
    (hrot : ∀ i, IsPermutation (m.rotors i))
    (hrefl : IsFixedPointFreeInvolution m.reflector) (ha : a ∈ CONST_ALPHABET) :
    textOf (encryptLetters (promptMessage (mapPlugBoard m) [a, a]))
      = some [symbolOut (advanceRotors (mapPlugBoard m)) a,
              symbolOut (advanceRotors (advanceRotors (mapPlugBoard m))) a] ∧
    ∀ r j, (advanceRotors (advanceRotors (mapPlugBoard m))).rotors r j
      ≠ (advanceRotors (mapPlugBoard m)).rotors r j := by
  constructor
  · have hs : Sound (promptMessage (mapPlugBoard m) [a, a]) :=
      ⟨hrot, hrefl.involution.inRange, (mapPlugBoard_involution m).inRange⟩
    have hal : InAlphabet (promptMessage (mapPlugBoard m) [a, a]).message := by
      intro c hc
      have hc' : c ∈ [a, a] := hc
      simp only [List.mem_cons, List.mem_singleton, or_self, List.not_mem_nil, or_false] at hc'
      rw [hc']
      exact ha
    obtain ⟨m', h0, h1, _⟩ := encryptLetters_spec _ hs rfl hal
    rw [h0]
    show some m'.message = _
    rw [h1]
    rfl
  · intro r j
    exact advanceEntry_ne _

theorem avalanche_settings_differ_witness :
    (∀ i, IsPermutation (sampleMachine.rotors i)) ∧
    IsFixedPointFreeInvolution sampleMachine.reflector ∧ 'A' ∈ CONST_ALPHABET ∧
    (textOf (encryptLetters (promptMessage (mapPlugBoard sampleMachine) ['A', 'A']))
      = some [symbolOut (advanceRotors (mapPlugBoard sampleMachine)) 'A',
              symbolOut (advanceRotors (advanceRotors (mapPlugBoard sampleMachine))) 'A'] ∧
    ∀ r j, (advanceRotors (advanceRotors (mapPlugBoard sampleMachine))).rotors r j
      ≠ (advanceRotors (mapPlugBoard sampleMachine)).rotors r j) :=
  ⟨sampleMachine_rotors, sampleMachine_reflector, by decide,
    avalanche_settings_differ sampleMachine 'A' sampleMachine_rotors sampleMachine_reflector
      (by decide)⟩

/-! ## `initReflector`: C4 -/

theorem drawPartner_accepts {set : Row} {i : Fin ALPHLENGTH} :
    ∀ {draws : List Nat} {k : Fin ALPHLENGTH} {rest : List Nat},
      drawPartner set i draws = some (k, rest) → i ≠ k ∧ set k = -1 ∧ set i = -1 := by
  intro draws
  induction draws with
  | nil => intro k rest h; cases h
  | cons r rs ih =>
    intro k rest h
    unfold drawPartner at h
    split at h
    · exact ih h
    · rename_i hc
      simp only [Option.some.injEq, Prod.mk.injEq] at h
      rw [← h.1]
      exact ⟨fun e => hc (Or.inl e), by_contra fun e => hc (Or.inr (Or.inl e)),
        by_contra fun e => hc (Or.inr (Or.inr e))⟩

theorem val_ne_neg_one (k : Fin ALPHLENGTH) : (k.val : Int) ≠ -1 := by omega

theorem initReflectorBody_spec {s s' : Machine × List Nat} {i : Fin ALPHLENGTH}
    (hinv : ReflectorPaired s.1) (h : initReflectorBody s i = some s') :
    ReflectorPaired s'.1 ∧ s'.1.reflector i ≠ -1 ∧
      ∀ x, s.1.reflector x ≠ -1 → s'.1.reflector x ≠ -1 := by
  unfold initReflectorBody at h
  split at h
  · rename_i hi
    split at h
    · cases h
    · rename_i k rest hd
      obtain ⟨hik, hk, _⟩ := drawPartner_accepts hd
      have hrk : s.1.reflector k = -1 := (hinv.1 k).mpr hk
      simp only [Option.some.injEq] at h
      subst h
      have hr : ∀ x, (setAt (setAt s.1.reflector i (k.val : Int)) k (i.val : Int)) x
          = if x = k then (i.val : Int) else if x = i then (k.val : Int)
            else s.1.reflector x := fun x => rfl
      have hs : ∀ x, (setAt (setAt s.1.reflectorSet k 1) i 1) x
          = if x = i then 1 else if x = k then 1 else s.1.reflectorSet x := fun x => rfl
      refine ⟨⟨?_, ?_⟩, ?_, ?_⟩
      · intro x
        show setAt (setAt s.1.reflector i (k.val : Int)) k (i.val : Int) x = -1
          ↔ setAt (setAt s.1.reflectorSet k 1) i 1 x = -1
        rw [hr, hs]
        by_cases hxk : x = k
        · subst hxk
          rw [if_pos rfl, if_neg (Ne.symm hik), if_pos rfl]
          constructor
          · intro e; exact absurd e (val_ne_neg_one i)
          · intro e; exact absurd e (by decide)
        · by_cases hxi : x = i
          · subst hxi
            rw [if_neg hxk, if_pos rfl, if_pos rfl]
            constructor
            · intro e; exact absurd e (val_ne_neg_one k)
            · intro e; exact absurd e (by decide)
          · rw [if_neg hxk, if_neg hxi, if_neg hxi, if_neg hxk]
            exact hinv.1 x
      · intro x
        show setAt (setAt s.1.reflector i (k.val : Int)) k (i.val : Int) x ≠ -1 →
          ∃ k' : Fin ALPHLENGTH,
            setAt (setAt s.1.reflector i (k.val : Int)) k (i.val : Int) x = (k'.val : Int) ∧
            setAt (setAt s.1.reflector i (k.val : Int)) k (i.val : Int) k' = (x.val : Int) ∧
            k' ≠ x
        intro hx
        by_cases hxk : x = k
        · subst hxk
          refine ⟨i, ?_, ?_, hik⟩
          · rw [hr, if_pos rfl]
          · rw [hr, if_neg hik, if_pos rfl]
        · by_cases hxi : x = i
          · subst hxi
            refine ⟨k, ?_, ?_, Ne.symm hik⟩
            · rw [hr, if_neg hxk, if_pos rfl]
            · rw [hr, if_pos rfl]
          · rw [hr, if_neg hxk, if_neg hxi] at hx
            obtain ⟨y, hy1, hy2, hy3⟩ := hinv.2 x hx
            have hyk : y ≠ k := by
              intro e
              rw [e, hrk] at hy2
              exact val_ne_neg_one x hy2.symm
            have hyi : y ≠ i := by
              intro e
              rw [e, hi] at hy2
              exact val_ne_neg_one x hy2.symm
            refine ⟨y, ?_, ?_, hy3⟩
            · rw [hr, if_neg hxk, if_neg hxi, hy1]
            · rw [hr, if_neg hyk, if_neg hyi, hy2]
      · show setAt (setAt s.1.reflector i (k.val : Int)) k (i.val : Int) i ≠ -1
        rw [hr, if_neg hik, if_pos rfl]
        exact val_ne_neg_one k
      · intro x hx
        show setAt (setAt s.1.reflector i (k.val : Int)) k (i.val : Int) x ≠ -1
        rw [hr]
        split
        · exact val_ne_neg_one i
        · split
          · exact val_ne_neg_one k
          · exact hx
  · rename_i hi
    simp only [Option.some.injEq] at h
    subst h
    exact ⟨hinv, hi, fun _ hx => hx⟩

theorem initReflector_fold (l : List (Fin ALPHLENGTH)) :
    ∀ {s s' : Machine × List Nat}, ReflectorPaired s.1 →
      l.foldlM initReflectorBody s = some s' →
      ReflectorPaired s'.1 ∧ (∀ x ∈ l, s'.1.reflector x ≠ -1) ∧
        ∀ x, s.1.reflector x ≠ -1 → s'.1.reflector x ≠ -1 := by
  induction l with
  | nil =>
    intro s s' hinv h
    simp only [List.foldlM_nil, pure, Option.some.injEq] at h
    subst h
    exact ⟨hinv, fun x hx => absurd hx (List.not_mem_nil x), fun _ hx => hx⟩
  | cons i is ih =>
    intro s s' hinv h
    rw [List.foldlM_cons] at h
    cases hb : initReflectorBody s i with
    | none => rw [hb] at h; cases h
    | some s1 =>
      rw [hb] at h
      obtain ⟨h1, h2, h3⟩ := initReflectorBody_spec hinv hb
      obtain ⟨g1, g2, g3⟩ := ih h1 h
      refine ⟨g1, ?_, fun x hx => g3 x (h3 x hx)⟩
      intro x hx
      rcases List.mem_cons.mp hx with e | e
      · rw [e]
        exact g3 i h2
      · exact g2 x e

theorem reflectorPaired_new : ReflectorPaired Machine.new :=
  ⟨fun _ => ⟨fun _ => rfl, fun _ => rfl⟩, fun _ h => absurd rfl h⟩

/-- C4, the reflector that `initReflector` builds: started on the machine the constructor
leaves, if `initReflector` completes on the draws, then for every column `i` the entry
`reflector[i]` is a column `k` with `reflector[k] == i` and `k != i`. -/
theorem initReflector_involution (draws : List Nat) (m' : Machine) (rest : List Nat)
    (h : initReflector Machine.new draws = some (m', rest)) :
    IsFixedPointFreeInvolution m'.reflector := by
  obtain ⟨h1, h2, _⟩ := initReflector_fold (List.finRange ALPHLENGTH)
    (s := (Machine.new, draws)) reflectorPaired_new h
  intro i
  exact h1.2 i (h2 i (List.mem_finRange i))

set_option maxRecDepth 1000000 in
theorem initReflector_involution_witness :
    ∃ m' rest, initReflector Machine.new (List.range' 47 47) = some (m', rest) ∧
      IsFixedPointFreeInvolution m'.reflector := by
  have hs : (initReflector Machine.new (List.range' 47 47)).isSome = true := by decide
  obtain ⟨⟨m', rest⟩, h⟩ := Option.isSome_iff_exists.mp hs
  exact ⟨m', rest, h, initReflector_involution (List.range' 47 47) m' rest h⟩

/-! ## `initRotors`: C10 -/

theorem drawUnused_accepts {set : Row} :
    ∀ {draws : List Nat} {k0 k : Fin ALPHLENGTH} {rest : List Nat},
      drawUnused set draws k0 = some (k, rest) → set k = -1 := by
  intro draws
  induction draws with
  | nil =>
    intro k0 k rest h
    unfold drawUnused at h
    split at h
    · cases h
    · rename_i hc
      simp only [Option.some.injEq, Prod.mk.injEq] at h
      rw [← h.1]
      exact by_contra hc
  | cons r rs ih =>
    intro k0 k rest h
    unfold drawUnused at h
    split at h
    · exact ih h
    · rename_i hc
      simp only [Option.some.injEq, Prod.mk.injEq] at h
      rw [← h.1]
      exact by_contra hc

theorem setAt2_apply (a : Bank) (r q : Fin NUMROTORS) (i c : Fin ALPHLENGTH) (v : Int) :
    setAt2 a r i v q c = if q = r then (if c = i then v else a q c) else a q c := by
  unfold setAt2 setAt
  split <;> rfl

theorem initRotorsBody_spec {s s' : Machine × List Nat} {i : Fin NUMROTORS}
    {j : Fin ALPHLENGTH} (hinv : ∀ q, RotorPartial s.1 q)
    (h : initRotorsBody i s j = some s') :
    (∀ q, RotorPartial s'.1 q) ∧ s'.1.rotors i j ≠ -1 ∧
      ∀ q c, s.1.rotors q c ≠ -1 → s'.1.rotors q c ≠ -1 := by
  unfold initRotorsBody at h
  split at h
  · cases h
  · rename_i r rs _
    split at h
    · rename_i hij
      split at h
      · cases h
      · rename_i k rest hd
        have hk : s.1.rotorsSet i k = -1 := drawUnused_accepts hd
        simp only [Option.some.injEq] at h
        subst h
        have hR : ∀ q c, setAt2 s.1.rotors i j (k.val : Int) q c
            = if q = i then (if c = j then (k.val : Int) else s.1.rotors q c)
              else s.1.rotors q c := fun q c => setAt2_apply _ _ _ _ _ _
        have hS : ∀ q c, setAt2 s.1.rotorsSet i k 1 q c
            = if q = i then (if c = k then 1 else s.1.rotorsSet q c)
              else s.1.rotorsSet q c := fun q c => setAt2_apply _ _ _ _ _ _
        have hT : ∀ q c, setAt2 s.1.rotorStartingConfigurations i j (k.val : Int) q c
            = if q = i then (if c = j then (k.val : Int)
                else s.1.rotorStartingConfigurations q c)
              else s.1.rotorStartingConfigurations q c := fun q c => setAt2_apply _ _ _ _ _ _
        have hfresh : ∀ c, s.1.rotors i c ≠ (k.val : Int) := fun c e =>
          (hinv i).1 c k e hk
        refine ⟨?_, ?_, ?_⟩
        · intro q
          show (∀ c (v : Fin ALPHLENGTH), setAt2 s.1.rotors i j (k.val : Int) q c = (v.val : Int) →
              setAt2 s.1.rotorsSet i k 1 q v ≠ -1) ∧
            (∀ c, setAt2 s.1.rotors i j (k.val : Int) q c ≠ -1 →
              0 ≤ setAt2 s.1.rotors i j (k.val : Int) q c ∧
              setAt2 s.1.rotors i j (k.val : Int) q c < (ALPHLENGTH : Int)) ∧
            (∀ c c', setAt2 s.1.rotors i j (k.val : Int) q c ≠ -1 →
              setAt2 s.1.rotors i j (k.val : Int) q c
                = setAt2 s.1.rotors i j (k.val : Int) q c' → c = c') ∧
            (∀ c, setAt2 s.1.rotorStartingConfigurations i j (k.val : Int) q c
              = setAt2 s.1.rotors i j (k.val : Int) q c)
          by_cases hq : q = i
          · subst hq
            simp only [hR, hS, hT, if_pos]
            refine ⟨?_, ?_, ?_, ?_⟩
            · intro c v hv
              by_cases hvk : v = k
              · rw [if_pos hvk]; decide
              · rw [if_neg hvk]
                by_cases hc : c = j
                · rw [if_pos hc] at hv
                  exact absurd (val_inj hv).symm hvk
                · rw [if_neg hc] at hv
                  exact (hinv q).1 c v hv
            · intro c hc
              by_cases hcj : c = j
              · rw [if_pos hcj, alphlength_cast]
                have : k.val < 94 := k.isLt
                omega
              · rw [if_neg hcj] at hc ⊢
                exact (hinv q).2.1 c hc
            · intro c c' hc he
              by_cases hcj : c = j
              · by_cases hcj' : c' = j
                · rw [hcj, hcj']
                · rw [if_pos hcj, if_neg hcj'] at he
                  exact absurd he.symm (hfresh c')
              · by_cases hcj' : c' = j
                · rw [if_neg hcj, if_pos hcj'] at he
                  exact absurd he (hfresh c)
                · rw [if_neg hcj] at hc
                  rw [if_neg hcj, if_neg hcj'] at he
                  exact (hinv q).2.2.1 c c' hc he
            · intro c
              by_cases hcj : c = j
              · rw [if_pos hcj, if_pos hcj]
              · rw [if_neg hcj, if_neg hcj]
                exact (hinv q).2.2.2 c
          · simp only [hR, hS, hT, if_neg hq]
            exact hinv q
        · show setAt2 s.1.rotors i j (k.val : Int) i j ≠ -1
          rw [hR, if_pos rfl, if_pos rfl]
          exact val_ne_neg_one k
        · intro q c hqc
          show setAt2 s.1.rotors i j (k.val : Int) q c ≠ -1
          rw [hR]
          split
          · split
            · exact val_ne_neg_one k
            · exact hqc
          · exact hqc
    · rename_i hij
      simp only [Option.some.injEq] at h
      subst h
      exact ⟨hinv, hij, fun _ _ hx => hx⟩

theorem initRotor_fold (i : Fin NUMROTORS) (l : List (Fin ALPHLENGTH)) :
    ∀ {s s' : Machine × List Nat}, (∀ q, RotorPartial s.1 q) →
      l.foldlM (initRotorsBody i) s = some s' →
      (∀ q, RotorPartial s'.1 q) ∧ (∀ j ∈ l, s'.1.rotors i j ≠ -1) ∧
        ∀ q c, s.1.rotors q c ≠ -1 → s'.1.rotors q c ≠ -1 := by
  induction l with
  | nil =>
    intro s s' hinv h
    simp only [List.foldlM_nil, pure, Option.some.injEq] at h
    subst h
    exact ⟨hinv, fun x hx => absurd hx (List.not_mem_nil x), fun _ _ hx => hx⟩
  | cons j js ih =>
    intro s s' hinv h
    rw [List.foldlM_cons] at h
    cases hb : initRotorsBody i s j with
    | none => rw [hb] at h; cases h
    | some s1 =>
      rw [hb] at h
      obtain ⟨h1, h2, h3⟩ := initRotorsBody_spec hinv hb
      obtain ⟨g1, g2, g3⟩ := ih h1 h
      refine ⟨g1, ?_, fun q c hx => g3 q c (h3 q c hx)⟩
      intro x hx
      rcases List.mem_cons.mp hx with e | e
      · rw [e]
        exact g3 i j h2
      · exact g2 x e

theorem initRotors_fold (l : List (Fin NUMROTORS)) :
    ∀ {s s' : Machine × List Nat}, (∀ q, RotorPartial s.1 q) →
      l.foldlM initRotor s = some s' →
      (∀ q, RotorPartial s'.1 q) ∧ (∀ i ∈ l, ∀ j, s'.1.rotors i j ≠ -1) ∧
        ∀ q c, s.1.rotors q c ≠ -1 → s'.1.rotors q c ≠ -1 := by
  induction l with
  | nil =>
    intro s s' hinv h
    simp only [List.foldlM_nil, pure, Option.some.injEq] at h
    subst h
    exact ⟨hinv, fun x hx => absurd hx (List.not_mem_nil x), fun _ _ hx => hx⟩
  | cons i is ih =>
    intro s s' hinv h
    rw [List.foldlM_cons] at h
    cases hb : initRotor s i with
    | none => rw [hb] at h; cases h
    | some s1 =>
      rw [hb] at h
      obtain ⟨h1, h2, h3⟩ := initRotor_fold i (List.finRange ALPHLENGTH) hinv hb
      obtain ⟨g1, g2, g3⟩ := ih h1 h
      refine ⟨g1, ?_, fun q c hx => g3 q c (h3 q c hx)⟩
      intro x hx j
      rcases List.mem_cons.mp hx with e | e
      · rw [e]
        exact g3 i j (h2 j (List.mem_finRange j))
      · exact g2 x e j

theorem rotorPartial_new (q : Fin NUMROTORS) : RotorPartial Machine.new q :=
  ⟨fun _ v h => absurd h.symm (val_ne_neg_one v), fun _ h => absurd rfl h,
    fun _ _ h => absurd rfl h, fun _ => rfl⟩

/-- C10, the rotors that `initRotors` builds: started on the machine the constructor leaves,
if `initRotors` completes on the draws, then every rotor `r` holds values of
`[0, ALPHLENGTH)` only, every value of `[0, ALPHLENGTH)` is held by exactly one column of
it, and `rotorStartingConfigurations[r]` is the same array as `rotors[r]`. -/
theorem initRotors_bijective (draws : List Nat) (m' : Machine) (rest : List Nat)
    (h : initRotors Machine.new draws = some (m', rest)) (r : Fin NUMROTORS) :
    InRange (m'.rotors r) ∧
    (∀ v : Fin ALPHLENGTH, ∃! j, m'.rotors r j = (v.val : Int)) ∧
    ∀ j, m'.rotorStartingConfigurations r j = m'.rotors r j := by
  obtain ⟨h1, h2, _⟩ := initRotors_fold (List.finRange NUMROTORS)
    (s := (Machine.new, draws)) rotorPartial_new h
  have hset : ∀ j, m'.rotors r j ≠ -1 := h2 r (List.mem_finRange r)
  have hperm : IsPermutation (m'.rotors r) :=
    ⟨fun j => (h1 r).2.1 j (hset j), fun a b hab => (h1 r).2.2.1 a b (hset a) hab⟩
  refine ⟨hperm.1, ?_, (h1 r).2.2.2⟩
  intro v
  obtain ⟨j, hj⟩ := hperm.surj v
  exact ⟨j, hj, fun j' hj' => hperm.2 (hj'.trans hj.symm)⟩

theorem drawUnused_free {set : Row} {k : Fin ALPHLENGTH} (h : set k = -1) (rs : List Nat) :
    drawUnused set rs k = some (k, rs) := by
  cases rs with
  | nil => unfold drawUnused; rw [if_neg (fun e => e h)]
  | cons r rs => unfold drawUnused; rw [if_neg (fun e => e h)]

theorem drawColumn_val (j : Fin ALPHLENGTH) : drawColumn j.val = j :=
  Fin.ext (Nat.mod_eq_of_lt j.isLt)

theorem initRotorsBody_built (i : Fin NUMROTORS) (j : Fin ALPHLENGTH) (rs : List Nat) :
    initRotorsBody i (builtRotors i.val j.val, j.val :: rs) j
      = some (builtRotors i.val (j.val + 1), rs) := by
  have hij : (builtRotors i.val j.val).rotors i j = -1 := by
    show (if i.val < i.val ∨ (i.val = i.val ∧ j.val < j.val) then (j.val : Int) else -1) = -1
    rw [if_neg (by omega)]
  have hset : (builtRotors i.val j.val).rotorsSet i j = -1 := by
    show (if i.val < i.val ∨ (i.val = i.val ∧ j.val < j.val) then (1 : Int) else -1) = -1
    rw [if_neg (by omega)]
  have e1 : setAt2 (builtRotors i.val j.val).rotors i j (j.val : Int)
      = (builtRotors i.val (j.val + 1)).rotors := by
    funext q c
    rw [setAt2_apply]
    show (if q = i then (if c = j then (j.val : Int)
        else if q.val < i.val ∨ (q.val = i.val ∧ c.val < j.val) then (c.val : Int) else -1)
      else if q.val < i.val ∨ (q.val = i.val ∧ c.val < j.val) then (c.val : Int) else -1)
      = if q.val < i.val ∨ (q.val = i.val ∧ c.val < j.val + 1) then (c.val : Int) else -1
    simp only [Fin.ext_iff]
    split_ifs <;> omega
  have e2 : setAt2 (builtRotors i.val j.val).rotorsSet i j 1
      = (builtRotors i.val (j.val + 1)).rotorsSet := by
    funext q c
    rw [setAt2_apply]
    show (if q = i then (if c = j then (1 : Int)
        else if q.val < i.val ∨ (q.val = i.val ∧ c.val < j.val) then 1 else -1)
      else if q.val < i.val ∨ (q.val = i.val ∧ c.val < j.val) then 1 else -1)
      = if q.val < i.val ∨ (q.val = i.val ∧ c.val < j.val + 1) then 1 else -1
    simp only [Fin.ext_iff]
    split_ifs <;> omega
  have e3 : setAt2 (builtRotors i.val j.val).rotorStartingConfigurations i j (j.val : Int)
      = (builtRotors i.val (j.val + 1)).rotorStartingConfigurations := e1
  unfold initRotorsBody
  simp only
  rw [if_pos hij, drawColumn_val, drawUnused_free hset]
  simp only
  rw [e1, e2, e3]
  rfl

theorem builtRotors_next (i : Nat) : builtRotors i ALPHLENGTH = builtRotors (i + 1) 0 := by
  have e1 : (builtRotors i ALPHLENGTH).rotors = (builtRotors (i + 1) 0).rotors := by
    funext q c
    show (if q.val < i ∨ (q.val = i ∧ c.val < 94) then (c.val : Int) else -1)
      = if q.val < i + 1 ∨ (q.val = i + 1 ∧ c.val < 0) then (c.val : Int) else -1
    have hc : c.val < 94 := c.isLt
    split_ifs <;> omega
  have e2 : (builtRotors i ALPHLENGTH).rotorsSet = (builtRotors (i + 1) 0).rotorsSet := by
    funext q c
    show (if q.val < i ∨ (q.val = i ∧ c.val < 94) then (1 : Int) else -1)
      = if q.val < i + 1 ∨ (q.val = i + 1 ∧ c.val < 0) then 1 else -1
    have hc : c.val < 94 := c.isLt
    split_ifs <;> omega
  have e3 : (builtRotors i ALPHLENGTH).rotorStartingConfigurations
      = (builtRotors (i + 1) 0).rotorStartingConfigurations := e1
  show ({ Machine.new with
      rotors := (builtRotors i ALPHLENGTH).rotors
      rotorsSet := (builtRotors i ALPHLENGTH).rotorsSet
      rotorStartingConfigurations := (builtRotors i ALPHLENGTH).rotorStartingConfigurations }
      : Machine) = _
  rw [e1, e2, e3]
  rfl

theorem builtRotors_zero : builtRotors 0 0 = Machine.new := by
  have e1 : (builtRotors 0 0).rotors = Machine.new.rotors := by
    funext q c
    show (if q.val < 0 ∨ (q.val = 0 ∧ c.val < 0) then (c.val : Int) else -1) = -1
    rw [if_neg (by omega)]
  have e2 : (builtRotors 0 0).rotorsSet = Machine.new.rotorsSet := by
    funext q c
    show (if q.val < 0 ∨ (q.val = 0 ∧ c.val < 0) then (1 : Int) else -1) = -1
    rw [if_neg (by omega)]
  have e3 : (builtRotors 0 0).rotorStartingConfigurations
      = Machine.new.rotorStartingConfigurations := e1
  show ({ Machine.new with
      rotors := (builtRotors 0 0).rotors
      rotorsSet := (builtRotors 0 0).rotorsSet
      rotorStartingConfigurations := (builtRotors 0 0).rotorStartingConfigurations }
      : Machine) = _
  rw [e1, e2, e3]

theorem initRotor_built (i : Fin NUMROTORS) (rest : List Nat) :
    ∀ (l : List (Fin ALPHLENGTH)) (j0 : Nat), l.map Fin.val = List.range' j0 l.length →
      l.foldlM (initRotorsBody i) (builtRotors i.val j0, l.map Fin.val ++ rest)
        = some (builtRotors i.val (j0 + l.length), rest) := by
  intro l
  induction l with
  | nil => intro j0 _; rfl
  | cons j js ih =>
    intro j0 h
    simp only [List.map_cons, List.length_cons, List.range'_succ, List.cons.injEq] at h
    obtain ⟨hj, hjs⟩ := h
    subst hj
    rw [List.foldlM_cons, List.map_cons, List.cons_append, initRotorsBody_built]
    show js.foldlM (initRotorsBody i) (builtRotors i.val (j.val + 1), js.map Fin.val ++ rest) = _
    rw [ih (j.val + 1) hjs, List.length_cons]
    congr 3
    omega

theorem finRange_map_val : (List.finRange ALPHLENGTH).map Fin.val = List.range ALPHLENGTH := by
  decide

theorem initRotors_built (rest : List Nat) :
    ∀ (l : List (Fin NUMROTORS)) (i0 : Nat), l.map Fin.val = List.range' i0 l.length →
      l.foldlM initRotor
          (builtRotors i0 0, (List.replicate l.length (List.range ALPHLENGTH)).flatten ++ rest)
        = some (builtRotors (i0 + l.length) 0, rest) := by
  intro l
  induction l with
  | nil => intro i0 _; rfl
  | cons i is ih =>
    intro i0 h
    simp only [List.map_cons, List.length_cons, List.range'_succ, List.cons.injEq] at h
    obtain ⟨hi, his⟩ := h
    subst hi
    have hstep : initRotor (builtRotors i.val 0, List.range ALPHLENGTH ++
        ((List.replicate is.length (List.range ALPHLENGTH)).flatten ++ rest)) i
        = some (builtRotors (i.val + 1) 0,
            (List.replicate is.length (List.range ALPHLENGTH)).flatten ++ rest) := by
      unfold initRotor
      rw [← finRange_map_val, initRotor_built i _ (List.finRange ALPHLENGTH) 0
        (by rw [finRange_map_val, List.range_eq_range']; simp)]
      simp only [List.length_finRange, Nat.zero_add]
      rw [builtRotors_next]
    rw [List.foldlM_cons, List.length_cons, List.replicate_succ, List.flatten_cons,
      List.append_assoc, hstep]
    show is.foldlM initRotor (builtRotors (i.val + 1) 0, _) = _
    rw [ih (i.val + 1) his]
    congr 3
    omega

theorem initRotors_sampleDraws :
    initRotors Machine.new sampleDraws = some (builtRotors NUMROTORS 0, []) := by
  have hl : (List.finRange NUMROTORS).map Fin.val
      = List.range' 0 (List.finRange NUMROTORS).length := by decide
  have h := initRotors_built [] (List.finRange NUMROTORS) 0 hl
  rw [List.append_nil, List.length_finRange, Nat.zero_add, builtRotors_zero] at h
  exact h

theorem initRotors_bijective_witness :
    initRotors Machine.new sampleDraws = some (builtRotors NUMROTORS 0, []) ∧
    InRange ((builtRotors NUMROTORS 0).rotors 7) ∧
    (∀ v : Fin ALPHLENGTH, ∃! j, (builtRotors NUMROTORS 0).rotors 7 j = (v.val : Int)) ∧
    ∀ j, (builtRotors NUMROTORS 0).rotorStartingConfigurations 7 j
      = (builtRotors NUMROTORS 0).rotors 7 j :=
  ⟨initRotors_sampleDraws,
    initRotors_bijective sampleDraws (builtRotors NUMROTORS 0) [] initRotors_sampleDraws 7⟩

/-! ## A symbol outside the alphabet: C2 -/

theorem letterToNumFrom_not_mem (c : Char) :
    ∀ (l : List Char) (i : Nat), c ∉ l → letterToNumFrom c l i = -1 := by
  intro l
  induction l with
  | nil => intro i _; rfl
  | cons d ds ih =>
    intro i h
    unfold letterToNumFrom
    rw [if_neg (fun e : c = d => h (by rw [e]; exact List.mem_cons_self _ _))]
    exact ih (i + 1) (fun e => h (List.mem_cons_of_mem _ e))

theorem encryptSymbol_unknown (m : Machine) {c : Char} (hc : c ∉ CONST_ALPHABET) :
    encryptSymbol m c = .error (Fault.indexOutOfBounds (-1)) := by
  have h1 : letterToNum c = -1 := letterToNumFrom_not_mem c CONST_ALPHABET 0 hc
  unfold encryptSymbol plugBoardAssign readAt
  simp only [h1]
  rw [column?_eq_none (Or.inl (by decide))]
  rfl

theorem encryptLoop_unknown (c : Char) (post : List Char) (n : Nat)
    (hc : c ∉ CONST_ALPHABET) (pre : List Char) :
    ∀ (m : Machine) (done : List Char), Sound m → m.message = done ++ (pre ++ c :: post) →
      m.messagePosition = (done.length : Int) → InAlphabet pre →
      encryptLoop (pre.length + (n + 1)) m = .error (Fault.indexOutOfBounds (-1)) := by
  induction pre with
  | nil =>
    intro m done _ hmsg hpos _
    show encryptLoop (0 + (n + 1)) m = _
    rw [Nat.zero_add]
    show (encryptBody m >>= fun m1 =>
      encryptLoop n { m1 with messagePosition := m1.messagePosition + 1 }) = _
    have hmsg' : m.message = done ++ c :: post := hmsg
    rw [encryptBody_eq, hmsg', hpos, stringAt_append, bind_ok, encryptSymbol_unknown _ hc]
    rfl
  | cons d ds ih =>
    intro m done hs hmsg hpos halph
    obtain ⟨x, hx⟩ := exists_symbolAt_of_mem (halph d (List.mem_cons_self _ _))
    obtain ⟨y, hy⟩ := encryptSymbol_ok (advanceRotors m) hs.step.1 hs.step.2.1 hs.step.2.2 x
    rw [hx] at hy
    have hbody : encryptBody m = .ok { advanceRotors m with
        message := (done ++ [symbolAt y]) ++ (ds ++ c :: post),
        scanMisses := m.scanMisses } := by
      have hmsg' : m.message = done ++ d :: (ds ++ c :: post) := hmsg
      rw [encryptBody_eq, hmsg', hpos, stringAt_append, bind_ok, hy, bind_ok]
      simp only [Int.toNat_ofNat, set_append_cons]
      rfl
    have hrec := ih { advanceRotors m with
          message := (done ++ [symbolAt y]) ++ (ds ++ c :: post), scanMisses := m.scanMisses,
          messagePosition := m.messagePosition + 1 } (done ++ [symbolAt y])
        hs.step rfl (by show m.messagePosition + 1 = _; rw [hpos]; simp)
        (fun e he => halph e (List.mem_cons_of_mem _ he))
    have hn : (d :: ds).length + (n + 1) = (ds.length + (n + 1)) + 1 := by
      rw [List.length_cons]; omega
    rw [hn]
    show (encryptBody m >>= fun m1 =>
      encryptLoop (ds.length + (n + 1))
        { m1 with messagePosition := m1.messagePosition + 1 }) = _
    rw [hbody, bind_ok]
    exact hrec

/-- C2, what the code does with a symbol outside the alphabet: on a machine whose rotors
are permutations and whose reflector and plugboard hold columns, when `message` is `pre`
over the alphabet, then a character `c` that is not in `CONST_ALPHABET`, then `post`,
`letterToNum` returns `-1` for `c` and `encryptLetters` stops on the subscript `-1` of
`plugBoard`: an array read outside its bounds, not a reported error. -/
theorem unknownSymbol_indexes_plugBoard (m : Machine) (pre post : List Char) (c : Char)
    (hrot : ∀ i, IsPermutation (m.rotors i)) (hrefl : InRange m.reflector)
    (hplug : InRange m.plugBoard) (hmsg : m.message = pre ++ c :: post)
    (hlen : m.length = (m.message.length : Int)) (hpre : InAlphabet pre)
    (hc : c ∉ CONST_ALPHABET) :
    letterToNum c = -1 ∧ encryptLetters m = .error (Fault.indexOutOfBounds (-1)) := by
  refine ⟨letterToNumFrom_not_mem c CONST_ALPHABET 0 hc, ?_⟩
  unfold encryptLetters
  have hn : m.length.toNat = pre.length + (post.length + 1) := by
    rw [hlen, Int.toNat_ofNat, hmsg, List.length_append, List.length_cons]
  rw [hn]
  exact encryptLoop_unknown c post post.length hc pre { m with messagePosition := 0 } []
    ⟨hrot, hrefl, hplug⟩ hmsg rfl hpre

theorem unknownSymbol_indexes_plugBoard_witness :
    (∀ i, IsPermutation ((promptMessage sampleMachine ['c', 'a', 'f', '~', '!']).rotors i)) ∧
    InRange (promptMessage sampleMachine ['c', 'a', 'f', '~', '!']).reflector ∧
    InRange (promptMessage sampleMachine ['c', 'a', 'f', '~', '!']).plugBoard ∧
    (promptMessage sampleMachine ['c', 'a', 'f', '~', '!']).message
      = ['c', 'a', 'f'] ++ '~' :: ['!'] ∧
    InAlphabet ['c', 'a', 'f'] ∧ '~' ∉ CONST_ALPHABET ∧
    letterToNum '~' = -1 ∧
    encryptLetters (promptMessage sampleMachine ['c', 'a', 'f', '~', '!'])
      = .error (Fault.indexOutOfBounds (-1)) :=
  ⟨sampleMachine_rotors, sampleMachine_reflector.involution.inRange,
    sampleMachine_plugBoard.inRange, rfl, by decide, by decide,
    unknownSymbol_indexes_plugBoard (promptMessage sampleMachine ['c', 'a', 'f', '~', '!'])
      ['c', 'a', 'f'] ['!'] '~' sampleMachine_rotors
      sampleMachine_reflector.involution.inRange sampleMachine_plugBoard.inRange rfl rfl
      (by decide) (by decide)⟩

/-! ## The rejection loops always have a candidate: C11 -/

theorem foldlM_invariant {σ α : Type} (f : σ → α → Option σ) (P : σ → Prop)
    (hf : ∀ s a s', P s → f s a = some s' → P s') :
    ∀ (l : List α) (s s' : σ), P s → l.foldlM f s = some s' → P s' := by
  intro l
  induction l with
  | nil =>
    intro s s' hP h
    simp only [List.foldlM_nil, pure, Option.some.injEq] at h
    exact h ▸ hP
  | cons a as ih =>
    intro s s' hP h
    rw [List.foldlM_cons] at h
    cases hb : f s a with
    | none => rw [hb] at h; cases h
    | some s1 =>
      rw [hb] at h
      exact ih s1 s' (hf s a s1 hP hb) h

theorem initRotorsBody_marked (i : Fin NUMROTORS) (s : Machine × List Nat)
    (j : Fin ALPHLENGTH) (s' : Machine × List Nat) (hinv : RotorMarked s.1)
    (h : initRotorsBody i s j = some s') : RotorMarked s'.1 := by
  unfold initRotorsBody at h
  split at h
  · cases h
  · split at h
    · rename_i hij
      split at h
      · cases h
      · rename_i k rest hd
        simp only [Option.some.injEq] at h
        subst h
        intro q v hv
        have hv' : setAt2 s.1.rotorsSet i k 1 q v ≠ -1 := hv
        show ∃ c, setAt2 s.1.rotors i j (k.val : Int) q c = (v.val : Int)
        rw [setAt2_apply] at hv'
        by_cases hq : q = i
        · subst hq
          rw [if_pos rfl] at hv'
          by_cases hvk : v = k
          · refine ⟨j, ?_⟩
            rw [setAt2_apply, if_pos rfl, if_pos rfl, hvk]
          · rw [if_neg hvk] at hv'
            obtain ⟨c, hc⟩ := hinv q v hv'
            have hcj : c ≠ j := by
              intro e
              rw [e, hij] at hc
              exact val_ne_neg_one v hc.symm
            exact ⟨c, by rw [setAt2_apply, if_pos rfl, if_neg hcj, hc]⟩
        · rw [if_neg hq] at hv'
          obtain ⟨c, hc⟩ := hinv q v hv'
          exact ⟨c, by rw [setAt2_apply, if_neg hq, hc]⟩
    · simp only [Option.some.injEq] at h
      subst h
      exact hinv

theorem initRotor_marked (s : Machine × List Nat) (i : Fin NUMROTORS)
    (s' : Machine × List Nat) (hinv : RotorMarked s.1) (h : initRotor s i = some s') :
    RotorMarked s'.1 :=
  foldlM_invariant (initRotorsBody i) (fun s => RotorMarked s.1)
    (fun s j s' => initRotorsBody_marked i s j s') _ s s' hinv h

theorem rotorLoopEntry_marked {draws : List Nat} {i : Fin NUMROTORS} {j : Fin ALPHLENGTH}
    {s : Machine × List Nat} (h : rotorLoopEntry draws i j = some s) : RotorMarked s.1 := by
  unfold rotorLoopEntry at h
  cases h1 : ((List.finRange NUMROTORS).take i.val).foldlM initRotor (Machine.new, draws) with
  | none => rw [h1] at h; cases h
  | some s1 =>
    rw [h1] at h
    have hnew : RotorMarked (Machine.new, draws).1 := fun _ _ hv => absurd rfl hv
    have hs1 : RotorMarked s1.1 :=
      foldlM_invariant initRotor (fun s => RotorMarked s.1) initRotor_marked _ _ _ hnew h1
    exact foldlM_invariant (initRotorsBody i) (fun s => RotorMarked s.1)
      (fun s j s' => initRotorsBody_marked i s j s') _ s1 s hs1 h

theorem exists_unmarked {m : Machine} (hinv : RotorMarked m) {i : Fin NUMROTORS}
    {j : Fin ALPHLENGTH} (hij : m.rotors i j = -1) : ∃ k, m.rotorsSet i k = -1 := by
  by_contra hno
  have hall : ∀ v, m.rotorsSet i v ≠ -1 := fun v hv => hno ⟨v, hv⟩
  choose f hf using fun v => hinv i v (hall v)
  have hinj : Function.Injective f := by
    intro a b hab
    apply val_inj
    rw [← hf a, ← hf b, hab]
  obtain ⟨v, hv⟩ := (Finite.injective_iff_surjective.mp hinj) j
  have := hf v
  rw [hv, hij] at this
  exact val_ne_neg_one v this.symm

theorem drawUnused_first (set : Row) (d : Nat) (post : List Nat)
    (hd : set (drawColumn d) = -1) :
    ∀ (pre : List Nat) (k0 : Fin ALPHLENGTH), set k0 ≠ -1 →
      (∀ e ∈ pre, set (drawColumn e) ≠ -1) →
      drawUnused set (pre ++ d :: post) k0 = some (drawColumn d, post) := by
  intro pre
  induction pre with
  | nil =>
    intro k0 hk0 _
    show drawUnused set (d :: post) k0 = _
    unfold drawUnused
    rw [if_pos hk0]
    exact drawUnused_free hd post
  | cons e es ih =>
    intro k0 hk0 hpre
    show drawUnused set (e :: (es ++ d :: post)) k0 = _
    unfold drawUnused
    rw [if_pos hk0]
    exact ih (drawColumn e) (hpre e (List.mem_cons_self _ _))
      (fun x hx => hpre x (List.mem_cons_of_mem _ hx))

theorem initRotorsBody_first (i : Fin NUMROTORS) (j : Fin ALPHLENGTH) (m : Machine)
    (hij : m.rotors i j = -1) (pre : List Nat) (d : Nat) (post : List Nat)
    (hpre : ∀ e ∈ pre, m.rotorsSet i (drawColumn e) ≠ -1)
    (hd : m.rotorsSet i (drawColumn d) = -1) :
    ∃ m', initRotorsBody i (m, pre ++ d :: post) j = some (m', post) ∧
      m'.rotors i j = ((drawColumn d).val : Int) := by
  have hdraw : ∀ r rs, pre ++ d :: post = r :: rs →
      drawUnused (m.rotorsSet i) rs (drawColumn r) = some (drawColumn d, post) := by
    intro r rs h
    cases pre with
    | nil =>
      simp only [List.nil_append, List.cons.injEq] at h
      rw [← h.1, ← h.2]
      exact drawUnused_free hd post
    | cons e es =>
      simp only [List.cons_append, List.cons.injEq] at h
      rw [← h.1, ← h.2]
      exact drawUnused_first _ d post hd es (drawColumn e) (hpre e (List.mem_cons_self _ _))
        (fun x hx => hpre x (List.mem_cons_of_mem _ hx))
  cases hl : pre ++ d :: post with
  | nil => cases pre <;> cases hl
  | cons r rs =>
    refine ⟨{ m with
        rotorsSet := setAt2 m.rotorsSet i (drawColumn d) 1
        rotors := setAt2 m.rotors i j ((drawColumn d).val : Int)
        rotorStartingConfigurations :=
          setAt2 m.rotorStartingConfigurations i j ((drawColumn d).val : Int) }, ?_, ?_⟩
    · unfold initRotorsBody
      simp only
      rw [if_pos hij, hdraw r rs hl]
    · show setAt2 m.rotors i j ((drawColumn d).val : Int) i j = _
      rw [setAt2_apply, if_pos rfl, if_pos rfl]

theorem reflectorLoopEntry_paired {draws : List Nat} {i : Fin ALPHLENGTH}
    {s : Machine × List Nat} (h : reflectorLoopEntry draws i = some s) :
    ReflectorPaired s.1 :=
  foldlM_invariant initReflectorBody (fun s => ReflectorPaired s.1)
    (fun _ _ _ hP hb => (initReflectorBody_spec hP hb).1) _ (Machine.new, draws) s
    reflectorPaired_new h

theorem exists_partner {m : Machine} (hinv : ReflectorPaired m) {i : Fin ALPHLENGTH}
    (hi : m.reflector i = -1) :
    ∃ k, k ≠ i ∧ m.reflectorSet k = -1 ∧ m.reflectorSet i = -1 := by
  let g : Fin ALPHLENGTH → Fin ALPHLENGTH := fun x => (column? (m.reflector x)).getD x
  have hg_un : ∀ x, m.reflector x = -1 → g x = x := by
    intro x hx
    show (column? (m.reflector x)).getD x = x
    rw [hx, column?_eq_none (Or.inl (by decide))]
    rfl
  have hg_as : ∀ x (k : Fin ALPHLENGTH), m.reflector x = (k.val : Int) → g x = k := by
    intro x k hx
    show (column? (m.reflector x)).getD x = k
    rw [hx, column?_val]
    rfl
  have hinvol : Function.Involutive g := by
    intro x
    by_cases hx : m.reflector x = -1
    · rw [hg_un x hx, hg_un x hx]
    · obtain ⟨k, hk1, hk2, _⟩ := hinv.2 x hx
      rw [hg_as x k hk1, hg_as k x hk2]
  have hfix : ∀ x, g x = x → m.reflector x = -1 := by
    intro x hx
    by_contra hne
    obtain ⟨k, hk1, _, hk3⟩ := hinv.2 x hne
    rw [hg_as x k hk1] at hx
    exact hk3 hx
  have hpow : (hinvol.toPerm g) ^ 2 ^ 1 = 1 := by
    ext x
    simp [pow_two, hinvol x]
  haveI : Fact (Nat.Prime 2) := ⟨Nat.prime_two⟩
  have hdvd : 2 ∣ Fintype.card (Fin ALPHLENGTH) := by
    rw [Fintype.card_fin]
    decide
  obtain ⟨b, hb1, hb2⟩ := Equiv.Perm.exists_fixed_point_of_prime' hdvd hpow
    (a := i) (hg_un i hi)
  exact ⟨b, hb2, (hinv.1 b).mp (hfix b hb1), (hinv.1 i).mp hi⟩

theorem drawPartner_first (set : Row) (i : Fin ALPHLENGTH) (d : Nat) (post : List Nat)
    (hd : ¬ (i = drawColumn d ∨ set (drawColumn d) ≠ -1 ∨ set i ≠ -1)) :
    ∀ pre : List Nat,
      (∀ e ∈ pre, i = drawColumn e ∨ set (drawColumn e) ≠ -1 ∨ set i ≠ -1) →
      drawPartner set i (pre ++ d :: post) = some (drawColumn d, post) := by
  intro pre
  induction pre with
  | nil =>
    intro _
    show drawPartner set i (d :: post) = _
    unfold drawPartner
    rw [if_neg hd]
  | cons e es ih =>
    intro hpre
    show drawPartner set i (e :: (es ++ d :: post)) = _
    unfold drawPartner
    rw [if_pos (hpre e (List.mem_cons_self _ _))]
    exact ih (fun x hx => hpre x (List.mem_cons_of_mem _ hx))

theorem initReflectorBody_first (i : Fin ALPHLENGTH) (m : Machine)
    (hi : m.reflector i = -1) (pre : List Nat) (d : Nat) (post : List Nat)
    (hpre : ∀ e ∈ pre,
      i = drawColumn e ∨ m.reflectorSet (drawColumn e) ≠ -1 ∨ m.reflectorSet i ≠ -1)
    (hd : ¬ (i = drawColumn d ∨ m.reflectorSet (drawColumn d) ≠ -1 ∨ m.reflectorSet i ≠ -1)) :
    ∃ m', initReflectorBody (m, pre ++ d :: post) i = some (m', post) ∧
      m'.reflector i = ((drawColumn d).val : Int) := by
  refine ⟨{ m with
      reflector := setAt (setAt m.reflector i ((drawColumn d).val : Int)) (drawColumn d)
        (i.val : Int)
      reflectorSet := setAt (setAt m.reflectorSet (drawColumn d) 1) i 1 }, ?_, ?_⟩
  · unfold initReflectorBody
    simp only
    rw [if_pos hi, drawPartner_first _ i d post hd pre hpre]
  · show setAt (setAt m.reflector i ((drawColumn d).val : Int)) (drawColumn d) (i.val : Int) i
      = _
    unfold setAt
    rw [if_neg (fun e => hd (Or.inl e)), if_pos rfl]

/-- C11, the rejection loops always have a candidate.  Whenever `initRotors`, started on
the constructor's machine, enters its loop body for rotor `i` and column `j` with
`rotors[i][j] == -1`, some `k` has `rotorsSet[i][k] == -1`, and on draws whose first
accepted one is `d` the body completes with `rotors[i][j] == d % ALPHLENGTH`, the draws
after `d` being left.  Whenever `initReflector` enters its loop body for column `i` with
`reflector[i] == -1`, some `k != i` has `reflectorSet[k] == -1`, `reflectorSet[i]` being
`-1` too, and on draws whose first accepted one is `d` the body completes with
`reflector[i] == d % ALPHLENGTH`. -/
theorem rejection_has_candidate :
    (∀ (draws : List Nat) (i : Fin NUMROTORS) (j : Fin ALPHLENGTH) (s : Machine × List Nat),
      rotorLoopEntry draws i j = some s → s.1.rotors i j = -1 →
      (∃ k, s.1.rotorsSet i k = -1) ∧
      ∀ (pre : List Nat) (d : Nat) (post : List Nat),
        (∀ e ∈ pre, s.1.rotorsSet i (drawColumn e) ≠ -1) →
        s.1.rotorsSet i (drawColumn d) = -1 →
        ∃ m', initRotorsBody i (s.1, pre ++ d :: post) j = some (m', post) ∧
          m'.rotors i j = ((drawColumn d).val : Int)) ∧
    (∀ (draws : List Nat) (i : Fin ALPHLENGTH) (s : Machine × List Nat),
      reflectorLoopEntry draws i = some s → s.1.reflector i = -1 →
      (∃ k, k ≠ i ∧ s.1.reflectorSet k = -1 ∧ s.1.reflectorSet i = -1) ∧
      ∀ (pre : List Nat) (d : Nat) (post : List Nat),
        (∀ e ∈ pre, i = drawColumn e ∨ s.1.reflectorSet (drawColumn e) ≠ -1
          ∨ s.1.reflectorSet i ≠ -1) →
        ¬ (i = drawColumn d ∨ s.1.reflectorSet (drawColumn d) ≠ -1
          ∨ s.1.reflectorSet i ≠ -1) →
        ∃ m', initReflectorBody (s.1, pre ++ d :: post) i = some (m', post) ∧
          m'.reflector i = ((drawColumn d).val : Int)) := by
  constructor
  · intro draws i j s h hij
    exact ⟨exists_unmarked (rotorLoopEntry_marked h) hij,
      fun pre d post hpre hd => initRotorsBody_first i j s.1 hij pre d post hpre hd⟩
  · intro draws i s h hi
    exact ⟨exists_partner (reflectorLoopEntry_paired h) hi,
      fun pre d post hpre hd => initReflectorBody_first i s.1 hi pre d post hpre hd⟩

set_option maxRecDepth 100000 in
theorem rejection_has_candidate_witness :
    (∃ s, rotorLoopEntry [5, 5, 9, 3] 0 2 = some s ∧ s.1.rotors 0 2 = -1 ∧
      ∃ k, s.1.rotorsSet 0 k = -1) ∧
    (∃ s, reflectorLoopEntry [0, 47, 1, 60] 1 = some s ∧ s.1.reflector 1 = -1 ∧
      ∃ k, k ≠ 1 ∧ s.1.reflectorSet k = -1 ∧ s.1.reflectorSet 1 = -1) := by
  constructor
  · have hs : (rotorLoopEntry [5, 5, 9, 3] 0 2).isSome = true := by decide
    obtain ⟨s, h⟩ := Option.isSome_iff_exists.mp hs
    have hv : (rotorLoopEntry [5, 5, 9, 3] 0 2).map (fun s => s.1.rotors 0 2) = some (-1) := by
      decide
    rw [h] at hv
    have h2 : s.1.rotors 0 2 = -1 := by simpa using hv
    exact ⟨s, h, h2, (rejection_has_candidate.1 [5, 5, 9, 3] 0 2 s h h2).1⟩
  · have hs : (reflectorLoopEntry [0, 47, 1, 60] 1).isSome = true := by decide
    obtain ⟨s, h⟩ := Option.isSome_iff_exists.mp hs
    have hv : (reflectorLoopEntry [0, 47, 1, 60] 1).map (fun s => s.1.reflector 1)
        = some (-1) := by
      decide
    rw [h] at hv
    have h2 : s.1.reflector 1 = -1 := by simpa using hv
    exact ⟨s, h, h2, (rejection_has_candidate.2 [0, 47, 1, 60] 1 s h h2).1⟩

/-! ## The alphabet and the plugboard: C12, C15 -/

theorem letterToNumFrom_mem (c : Char) :
    ∀ (l : List Char) (i : Nat), c ∈ l →
      ∃ n : Nat, n < l.length ∧ letterToNumFrom c l i = ((i + n : Nat) : Int) ∧
        l.get? n = some c := by
  intro l
  induction l with
  | nil => intro i h; cases h
  | cons d ds ih =>
    intro i h
    unfold letterToNumFrom
    by_cases hcd : c = d
    · rw [if_pos hcd]
      exact ⟨0, Nat.succ_pos _, rfl, by rw [hcd]; rfl⟩
    · rw [if_neg hcd]
      have hmem : c ∈ ds := by
        rcases List.mem_cons.mp h with e | e
        · exact absurd e hcd
        · exact e
      obtain ⟨n, hn1, hn2, hn3⟩ := ih (i + 1) hmem
      refine ⟨n + 1, Nat.succ_lt_succ hn1, ?_, hn3⟩
      rw [hn2]
      congr 1
      omega

theorem letterToNum_of_mem {c : Char} (h : c ∈ CONST_ALPHABET) :
    ∃ n : Nat, n < ALPHLENGTH ∧ letterToNum c = (n : Int) ∧ CONST_ALPHABET.get? n = some c := by
  obtain ⟨n, hn1, hn2, hn3⟩ := letterToNumFrom_mem c CONST_ALPHABET 0 h
  refine ⟨n, by rw [← alphabet_length]; exact hn1, ?_, hn3⟩
  unfold letterToNum
  rw [hn2, Nat.zero_add]

/-- C12, the alphabet is in bijection with its columns: `CONST_ALPHABET` holds
`ALPHLENGTH` characters, no two the same; `letterToNum` returns `j` on the symbol of column
`j`; an index `i >= 0` that `letterToNum` returns for `c` is below `ALPHLENGTH` with
`CONST_ALPHABET[i] == c`; and `letterToNum` returns `-1` exactly when `c` is not in the
alphabet. -/
theorem alphabet_bijection :
    CONST_ALPHABET.length = ALPHLENGTH ∧ CONST_ALPHABET.Nodup ∧
    (∀ j : Fin ALPHLENGTH, letterToNum (symbolAt j) = (j.val : Int)) ∧
    (∀ (c : Char) (i : Int), letterToNum c = i → 0 ≤ i →
      i < (ALPHLENGTH : Int) ∧ alphabetAt i = .ok c) ∧
    (∀ c : Char, letterToNum c = -1 ↔ c ∉ CONST_ALPHABET) := by
  refine ⟨alphabet_length, alphabet_nodup, letterToNum_symbolAt, ?_, ?_⟩
  · intro c i hi h0
    by_cases hc : c ∈ CONST_ALPHABET
    · obtain ⟨n, hn1, hn2, hn3⟩ := letterToNum_of_mem hc
      rw [hn2] at hi
      subst hi
      refine ⟨by rw [alphlength_cast]; have : n < 94 := hn1; omega, ?_⟩
      unfold alphabetAt
      rw [if_neg (by omega), Int.toNat_ofNat, hn3]
    · have := letterToNumFrom_not_mem c CONST_ALPHABET 0 hc
      unfold letterToNum at hi
      omega
  · intro c
    constructor
    · intro h hc
      obtain ⟨n, _, hn2, _⟩ := letterToNum_of_mem hc
      omega
    · exact letterToNumFrom_not_mem c CONST_ALPHABET 0

/-- C15, the plugboard reverses the alphabet: after `mapPlugBoard`, `plugBoard[i]` is
`letterToNum(CONST_ALPHABET[93 - i])`, which is `93 - i`, for every column `i`; the array is
a permutation of `[0, ALPHLENGTH)`, and it is the same whatever the machine was before. -/
theorem plugBoard_reverses (m : Machine) :
    (∀ i : Fin ALPHLENGTH,
      (mapPlugBoard m).plugBoard i = letterToNum (mirrorSymbol i) ∧
      CONST_ALPHABET.get? (ALPHLENGTH - 1 - i.val) = some (mirrorSymbol i) ∧
      letterToNum (mirrorSymbol i) = 93 - (i.val : Int)) ∧
    IsPermutation (mapPlugBoard m).plugBoard ∧
    ∀ m2 : Machine, (mapPlugBoard m2).plugBoard = (mapPlugBoard m).plugBoard := by
  refine ⟨fun i => ⟨rfl, ?_, letterToNum_mirrorSymbol i⟩, ⟨(mapPlugBoard_involution m).inRange, ?_⟩,
    fun _ => rfl⟩
  · have hi : ALPHLENGTH - 1 - i.val < CONST_ALPHABET.length := by
      rw [alphabet_length]
      show 94 - 1 - i.val < 94
      omega
    unfold mirrorSymbol
    rw [List.getD_eq_getElem _ _ hi, List.get?_eq_getElem?, List.getElem?_eq_getElem hi]
  · intro a b hab
    rw [mapPlugBoard_apply, mapPlugBoard_apply] at hab
    exact val_inj (by omega)

/-! ## Advancement over a whole text: C13, C16, C18, C19, C20 -/

theorem advanceEntry_iterate (n : Nat) {v : Int} (h0 : 0 ≤ v) (h1 : v < (ALPHLENGTH : Int)) :
    advanceEntry^[n] v = (v + (n : Int)) % (ALPHLENGTH : Int) := by
  induction n with
  | zero =>
    rw [alphlength_cast] at *
    show v = (v + ((0 : Nat) : Int)) % 94
    omega
  | succ n ih =>
    rw [Function.iterate_succ_apply', ih]
    have hr : 0 ≤ (v + (n : Int)) % (ALPHLENGTH : Int)
        ∧ (v + (n : Int)) % (ALPHLENGTH : Int) < (ALPHLENGTH : Int) := by
      rw [alphlength_cast]
      omega
    rw [advanceEntry_eq_mod hr.1 hr.2, alphlength_cast]
    push_cast
    omega

theorem advanceN_rotors (n : Nat) (m : Machine) (r : Fin NUMROTORS) (j : Fin ALPHLENGTH) :
    (advanceN n m).rotors r j = advanceEntry^[n] (m.rotors r j) := by
  induction n with
  | zero => rfl
  | succ n ih =>
    unfold advanceN at *
    rw [Function.iterate_succ_apply', Function.iterate_succ_apply', ← ih]
    rfl

theorem advanceN_plugBoard (n : Nat) (m : Machine) : (advanceN n m).plugBoard = m.plugBoard := by
  induction n with
  | zero => rfl
  | succ n ih =>
    unfold advanceN at *
    rw [Function.iterate_succ_apply', ← ih]
    rfl

theorem advanceN_reflector (n : Nat) (m : Machine) : (advanceN n m).reflector = m.reflector := by
  induction n with
  | zero => rfl
  | succ n ih =>
    unfold advanceN at *
    rw [Function.iterate_succ_apply', ← ih]
    rfl

theorem isPermutation_iterate (n : Nat) {r : Row} (h : IsPermutation r) :
    IsPermutation (fun j => advanceEntry^[n] (r j)) := by
  induction n with
  | zero => exact h
  | succ n ih =>
    have := ih.advance
    simp only [Function.iterate_succ_apply']
    exact this

/-- C16, every rotor advances once a symbol: on an initialized machine (rotors permutations
of `[0, ALPHLENGTH)`, reflector and plugboard holding columns) with a message of `n`
characters over the alphabet, `encryptLetters` returns and every rotor entry is then the
entry it was plus `n`, modulo `ALPHLENGTH`. -/
theorem rotors_advance_per_symbol (m : Machine) (hrot : ∀ i, IsPermutation (m.rotors i))
    (hrefl : InRange m.reflector) (hplug : InRange m.plugBoard)
    (hlen : m.length = (m.message.length : Int)) (ha : InAlphabet m.message) :
    ∃ m', encryptLetters m = .ok m' ∧
      ∀ r j, m'.rotors r j = (m.rotors r j + (m.message.length : Int)) % (ALPHLENGTH : Int) := by
  obtain ⟨m', h0, _, h2, _⟩ := encryptLetters_spec m ⟨hrot, hrefl, hplug⟩ hlen ha
  refine ⟨m', h0, fun r j => ?_⟩
  rw [h2]
  exact advanceEntry_iterate _ ((hrot r).1 j).1 ((hrot r).1 j).2

theorem rotors_advance_per_symbol_witness :
    (∀ i, IsPermutation ((promptMessage sampleMachine ['R', 'o', 't', 'o', 'r']).rotors i)) ∧
    InRange (promptMessage sampleMachine ['R', 'o', 't', 'o', 'r']).reflector ∧
    InRange (promptMessage sampleMachine ['R', 'o', 't', 'o', 'r']).plugBoard ∧
    InAlphabet (promptMessage sampleMachine ['R', 'o', 't', 'o', 'r']).message ∧
    ∃ m', encryptLetters (promptMessage sampleMachine ['R', 'o', 't', 'o', 'r']) = .ok m' ∧
      ∀ r j, m'.rotors r j = (sampleMachine.rotors r j + 5) % (ALPHLENGTH : Int) :=
  ⟨sampleMachine_rotors, sampleMachine_reflector.involution.inRange,
    sampleMachine_plugBoard.inRange, by decide,
    rotors_advance_per_symbol (promptMessage sampleMachine ['R', 'o', 't', 'o', 'r'])
      sampleMachine_rotors sampleMachine_reflector.involution.inRange
      sampleMachine_plugBoard.inRange rfl (by decide)⟩

/-- C19, advancement has period `ALPHLENGTH`: when every rotor entry lies in
`[0, ALPHLENGTH)`, 94 calls of `advanceRotors` bring every entry back to its value, no
smaller positive number of calls brings any entry back, and the rotors after `n` calls are
the rotors after `n % 94` calls. -/
theorem advance_period (m : Machine) (h : ∀ r, InRange (m.rotors r)) (r : Fin NUMROTORS)
    (j : Fin ALPHLENGTH) :
    (advanceN 94 m).rotors r j = m.rotors r j ∧
    (∀ k : Nat, 0 < k → k < 94 → (advanceN k m).rotors r j ≠ m.rotors r j) ∧
    ∀ n : Nat, (advanceN n m).rotors r j = (advanceN (n % 94) m).rotors r j := by
  have h0 := (h r j).1
  have h1 := (h r j).2
  refine ⟨?_, ?_, ?_⟩
  · rw [advanceN_rotors, advanceEntry_iterate 94 h0 h1]
    rw [alphlength_cast] at *
    omega
  · intro k hk0 hk1
    rw [advanceN_rotors, advanceEntry_iterate k h0 h1]
    rw [alphlength_cast] at *
    omega
  · intro n
    rw [advanceN_rotors, advanceN_rotors, advanceEntry_iterate n h0 h1,
      advanceEntry_iterate (n % 94) h0 h1]
    rw [alphlength_cast] at *
    push_cast
    omega

theorem advance_period_witness :
    (∀ r, InRange (sampleMachine.rotors r)) ∧
    (advanceN 94 sampleMachine).rotors 49 93 = sampleMachine.rotors 49 93 ∧
    (∀ k : Nat, 0 < k → k < 94 →
      (advanceN k sampleMachine).rotors 49 93 ≠ sampleMachine.rotors 49 93) ∧
    ∀ n : Nat, (advanceN n sampleMachine).rotors 49 93
      = (advanceN (n % 94) sampleMachine).rotors 49 93 :=
  ⟨fun r => (sampleMachine_rotors r).1,
    advance_period sampleMachine (fun r => (sampleMachine_rotors r).1) 49 93⟩

theorem encryptBody_rotors {m m1 : Machine} (h : encryptBody m = .ok m1) :
    m1.rotors = (advanceRotors m).rotors := by
  rw [encryptBody_eq] at h
  cases hc : stringAt m.message m.messagePosition with
  | error e => rw [hc] at h; cases h
  | ok c =>
    rw [hc, bind_ok] at h
    cases hs : encryptSymbol (advanceRotors m) c with
    | error e => rw [hs] at h; cases h
    | ok r =>
      rw [hs, bind_ok] at h
      cases h
      rfl

theorem encryptLoop_rotors (n : Nat) : ∀ {m m' : Machine}, encryptLoop n m = .ok m' →
    m'.rotors = fun i j => advanceEntry^[n] (m.rotors i j) := by
  induction n with
  | zero =>
    intro m m' h
    cases h
    rfl
  | succ n ih =>
    intro m m' h
    have h' : (encryptBody m >>= fun m1 =>
        encryptLoop n { m1 with messagePosition := m1.messagePosition + 1 }) = .ok m' := h
    cases hb : encryptBody m with
    | error e => rw [hb] at h'; cases h'
    | ok m1 =>
      rw [hb, bind_ok] at h'
      rw [ih h']
      show (fun i j => advanceEntry^[n] (m1.rotors i j)) = _
      rw [encryptBody_rotors hb]
      funext i j
      show advanceEntry^[n] (advanceEntry (m.rotors i j)) = _
      rw [Function.iterate_succ_apply]

/-- C18, the rotors stay permutations: when every rotor is a permutation of
`[0, ALPHLENGTH)`, every rotor is one after `advanceRotors`, and after `encryptLetters`
whenever it returns, which it does on a message over the alphabet when the reflector and
the plugboard hold columns; and when every row of `rotorStartingConfigurations` is a
permutation, every rotor is one after `resetRotors`. -/
theorem rotors_stay_permutations (m : Machine) :
    ((∀ i, IsPermutation (m.rotors i)) →
      (∀ i, IsPermutation ((advanceRotors m).rotors i)) ∧
      (∀ m', encryptLetters m = .ok m' → ∀ i, IsPermutation (m'.rotors i)) ∧
      (InRange m.reflector → InRange m.plugBoard → m.length = (m.message.length : Int) →
        InAlphabet m.message →
        ∃ m', encryptLetters m = .ok m' ∧ ∀ i, IsPermutation (m'.rotors i))) ∧
    ((∀ i, IsPermutation (m.rotorStartingConfigurations i)) →
      ∀ i, IsPermutation ((resetRotors m).rotors i)) := by
  constructor
  · intro hrot
    have hret : ∀ m', encryptLetters m = .ok m' → ∀ i, IsPermutation (m'.rotors i) := by
      intro m' h i
      unfold encryptLetters at h
      rw [encryptLoop_rotors _ h]
      exact isPermutation_iterate _ (hrot i)
    refine ⟨fun i => (hrot i).advance, hret, ?_⟩
    intro hrefl hplug hlen ha
    obtain ⟨m', h0, _⟩ := encryptLetters_spec m ⟨hrot, hrefl, hplug⟩ hlen ha
    exact ⟨m', h0, hret m' h0⟩
  · intro hstart i
    exact hstart i

theorem rotors_stay_permutations_witness :
    (∀ i, IsPermutation ((promptMessage sampleMachine ['K', 'e', 'e', 'p']).rotors i)) ∧
    (∀ i, IsPermutation
      ((promptMessage sampleMachine ['K', 'e', 'e', 'p']).rotorStartingConfigurations i)) ∧
    (∀ i, IsPermutation
      ((advanceRotors (promptMessage sampleMachine ['K', 'e', 'e', 'p'])).rotors i)) ∧
    (∃ m', encryptLetters (promptMessage sampleMachine ['K', 'e', 'e', 'p']) = .ok m' ∧
      ∀ i, IsPermutation (m'.rotors i)) ∧
    (∀ i, IsPermutation
      ((resetRotors (promptMessage sampleMachine ['K', 'e', 'e', 'p'])).rotors i)) :=
  ⟨sampleMachine_rotors, sampleMachine_rotors,
    ((rotors_stay_permutations (promptMessage sampleMachine ['K', 'e', 'e', 'p'])).1
      sampleMachine_rotors).1,
    ((rotors_stay_permutations (promptMessage sampleMachine ['K', 'e', 'e', 'p'])).1
      sampleMachine_rotors).2.2 sampleMachine_reflector.involution.inRange
      sampleMachine_plugBoard.inRange rfl (by decide),
    (rotors_stay_permutations (promptMessage sampleMachine ['K', 'e', 'e', 'p'])).2
      sampleMachine_rotors⟩

/-- C20, the shape of the output: on an initialized machine with a message over the
alphabet, `encryptLetters` returns, and `message` then has the length it had and holds
characters of `CONST_ALPHABET` only. -/
theorem output_shape (m : Machine) (hrot : ∀ i, IsPermutation (m.rotors i))
    (hrefl : InRange m.reflector) (hplug : InRange m.plugBoard)
    (hlen : m.length = (m.message.length : Int)) (ha : InAlphabet m.message) :
    ∃ m', encryptLetters m = .ok m' ∧ m'.message.length = m.message.length ∧
      InAlphabet m'.message ∧ m'.length = (m'.message.length : Int) := by
  obtain ⟨m', h0, h1, _, _, _, _, _, _, h8, _⟩ :=
    encryptLetters_spec m ⟨hrot, hrefl, hplug⟩ hlen ha
  refine ⟨m', h0, ?_, ?_, ?_⟩
  · rw [h1, cipherText_length]
  · rw [h1]
    exact cipherText_inAlphabet _ _ ⟨hrot, hrefl, hplug⟩ ha
  · rw [h8, hlen, h1, cipherText_length]

theorem output_shape_witness :
    (∀ i, IsPermutation ((promptMessage sampleMachine ['S', 'h', 'a', 'p', 'e']).rotors i)) ∧
    InRange (promptMessage sampleMachine ['S', 'h', 'a', 'p', 'e']).reflector ∧
    InRange (promptMessage sampleMachine ['S', 'h', 'a', 'p', 'e']).plugBoard ∧
    InAlphabet (promptMessage sampleMachine ['S', 'h', 'a', 'p', 'e']).message ∧
    ∃ m', encryptLetters (promptMessage sampleMachine ['S', 'h', 'a', 'p', 'e']) = .ok m' ∧
      m'.message.length = 5 ∧ InAlphabet m'.message ∧ m'.length = (m'.message.length : Int) :=
  ⟨sampleMachine_rotors, sampleMachine_reflector.involution.inRange,
    sampleMachine_plugBoard.inRange, by decide,
    output_shape (promptMessage sampleMachine ['S', 'h', 'a', 'p', 'e'])
      sampleMachine_rotors sampleMachine_reflector.involution.inRange
      sampleMachine_plugBoard.inRange rfl (by decide)⟩

/-- C13, what processing changes: on an initialized machine with a message over the
alphabet, `encryptLetters` returns with `plugBoard`, `reflector` and
`rotorStartingConfigurations` (and `rotorsSet`, `reflectorSet`, `length`) as they were, and
a machine `m2` with the same message, rotors, plugboard and reflector is left with the same
text, whatever its other members are. -/
theorem processing_frame (m m2 : Machine) (hrot : ∀ i, IsPermutation (m.rotors i))
    (hrefl : InRange m.reflector) (hplug : InRange m.plugBoard)
    (hlen : m.length = (m.message.length : Int)) (ha : InAlphabet m.message)
    (hmsg : m2.message = m.message) (hlen2 : m2.length = m.length)
    (hr : m2.rotors = m.rotors) (hp : m2.plugBoard = m.plugBoard)
    (hf : m2.reflector = m.reflector) :
    ∃ m', encryptLetters m = .ok m' ∧ m'.plugBoard = m.plugBoard ∧
      m'.reflector = m.reflector ∧
      m'.rotorStartingConfigurations = m.rotorStartingConfigurations ∧
      m'.rotorsSet = m.rotorsSet ∧ m'.reflectorSet = m.reflectorSet ∧ m'.length = m.length ∧
      textOf (encryptLetters m2) = some m'.message := by
  obtain ⟨m', h0, h1, _, h3, h4, h5, h6, h7, h8, _⟩ :=
    encryptLetters_spec m ⟨hrot, hrefl, hplug⟩ hlen ha
  have hs2 : Sound m2 := by
    refine ⟨?_, ?_, ?_⟩
    · rw [hr]; exact hrot
    · rw [hf]; exact hrefl
    · rw [hp]; exact hplug
  obtain ⟨m2', g0, g1, _⟩ := encryptLetters_spec m2 hs2 (by rw [hlen2, hlen, hmsg])
    (by rw [hmsg]; exact ha)
  refine ⟨m', h0, h3, h4, h5, h6, h7, h8, ?_⟩
  rw [g0]
  show some m2'.message = _
  rw [g1, h1, hmsg, cipherText_congr _ hr hp hf]

theorem processing_frame_witness :
    (∀ i, IsPermutation ((promptMessage sampleMachine ['F', 'r', 'a', 'm', 'e']).rotors i)) ∧
    InRange (promptMessage sampleMachine ['F', 'r', 'a', 'm', 'e']).reflector ∧
    InRange (promptMessage sampleMachine ['F', 'r', 'a', 'm', 'e']).plugBoard ∧
    InAlphabet (promptMessage sampleMachine ['F', 'r', 'a', 'm', 'e']).message ∧
    ∃ m', encryptLetters (promptMessage sampleMachine ['F', 'r', 'a', 'm', 'e']) = .ok m' ∧
      m'.plugBoard = sampleMachine.plugBoard ∧ m'.reflector = sampleMachine.reflector ∧
      m'.rotorStartingConfigurations = sampleMachine.rotorStartingConfigurations ∧
      m'.rotorsSet = sampleMachine.rotorsSet ∧ m'.reflectorSet = sampleMachine.reflectorSet ∧
      m'.length = 5 ∧
      textOf (encryptLetters { promptMessage sampleMachine ['F', 'r', 'a', 'm', 'e'] with
        rotorStartingConfigurations := fun _ _ => 0, messagePosition := 3, scanMisses := 9 })
        = some m'.message :=
  ⟨sampleMachine_rotors, sampleMachine_reflector.involution.inRange,
    sampleMachine_plugBoard.inRange, by decide,
    processing_frame (promptMessage sampleMachine ['F', 'r', 'a', 'm', 'e'])
      { promptMessage sampleMachine ['F', 'r', 'a', 'm', 'e'] with
        rotorStartingConfigurations := fun _ _ => 0, messagePosition := 3, scanMisses := 9 }
      sampleMachine_rotors sampleMachine_reflector.involution.inRange
      sampleMachine_plugBoard.inRange rfl (by decide) rfl rfl rfl rfl rfl⟩

/-! ## The symbol at each position: C14, C17 -/

theorem advanceN_succ (n : Nat) (m : Machine) :
    advanceN (n + 1) (advanceRotors m) = advanceN (n + 2) m := by
  unfold advanceN
  rw [Function.iterate_succ_apply (n := n + 1)]

theorem cipherText_get (s : List Char) : ∀ (m : Machine) (t : Nat) (c : Char),
    s.get? t = some c →
    (cipherText m s).get? t = some (symbolOut (advanceN (t + 1) m) c) := by
  induction s with
  | nil => intro m t c h; cases h
  | cons d ds ih =>
    intro m t c h
    cases t with
    | zero =>
      simp only [List.get?_cons_zero, Option.some.injEq] at h
      rw [← h]
      rfl
    | succ t =>
      simp only [List.get?_cons_succ] at h
      show (cipherText (advanceRotors m) ds).get? t = _
      rw [ih (advanceRotors m) t c h, advanceN_succ]

theorem sound_advanceN (n : Nat) {m : Machine} (h : Sound m) : Sound (advanceN n m) := by
  refine ⟨fun i => ?_, ?_, ?_⟩
  · have h1 : (advanceN n m).rotors i = fun j => advanceEntry^[n] (m.rotors i j) := by
      funext j
      exact advanceN_rotors n m i j
    rw [h1]
    exact isPermutation_iterate n (h.1 i)
  · rw [advanceN_reflector]
    exact h.2.1
  · rw [advanceN_plugBoard]
    exact h.2.2

theorem symbolAt_injective {a b : Fin ALPHLENGTH} (h : symbolAt a = symbolAt b) : a = b := by
  apply val_inj
  rw [← letterToNum_symbolAt a, ← letterToNum_symbolAt b, h]

/-- C14, the order of the substitutions: on an initialized machine with a message over the
alphabet, `encryptLetters` returns, and the character left at position `t` is
`CONST_ALPHABET[q]` where, `c` being the character that was there and the rotors being
those of entry advanced `t + 1` times, `p = plugBoard[letterToNum(c)]`, `f` is `p` passed
through rotor 0, rotor 1, ... (`encryptLetter`), `r = reflector[f]`, `g` is `r` passed back
from the last rotor to rotor 0 with every scan hitting, so that `g` passed forward is `r`,
and `q = plugBoard[g]`. -/
theorem substitution_order (m : Machine) (hrot : ∀ i, IsPermutation (m.rotors i))
    (hrefl : InRange m.reflector) (hplug : InRange m.plugBoard)
    (hlen : m.length = (m.message.length : Int)) (ha : InAlphabet m.message) :
    ∃ m', encryptLetters m = .ok m' ∧
      ∀ (t : Nat) (c : Char), m.message.get? t = some c →
        ∃ p f r g q : Int,
          plugBoardAssign m (letterToNum c) = .ok p ∧
          encryptLetter (advanceN (t + 1) m) p = .ok f ∧
          readAt m.reflector f = .ok r ∧
          reverseRotors (advanceN (t + 1) m).rotors r = (g, 0) ∧
          encryptLetter (advanceN (t + 1) m) g = .ok r ∧
          plugBoardAssign m g = .ok q ∧
          ∃ out : Char, alphabetAt q = .ok out ∧ m'.message.get? t = some out := by
  have hs : Sound m := ⟨hrot, hrefl, hplug⟩
  obtain ⟨m', h0, h1, _⟩ := encryptLetters_spec m hs hlen ha
  refine ⟨m', h0, ?_⟩
  intro t c hc
  have hsA := sound_advanceN (t + 1) hs
  obtain ⟨x, hx⟩ := exists_symbolAt_of_mem (ha c (List.get?_mem hc))
  obtain ⟨p, hp⟩ := hplug.exists_column x
  obtain ⟨f, hf, _⟩ := encryptLetter_inverse (advanceN (t + 1) m) hsA.1 0 p
  obtain ⟨r, hr⟩ := hrefl.exists_column f
  obtain ⟨g, hg, hg2⟩ := reverseRotors_inverse (advanceN (t + 1) m) hsA.1 r
  obtain ⟨q, hq⟩ := hplug.exists_column g
  have hsym : encryptSymbol (advanceN (t + 1) m) (symbolAt x) = .ok (symbolAt q, 0) :=
    encryptSymbol_eq (advanceN (t + 1) m) x p f r g q 0
      (by rw [advanceN_plugBoard]; exact hp) hf (by rw [advanceN_reflector]; exact hr) hg
      (by rw [advanceN_plugBoard]; exact hq)
  have hout : symbolOut (advanceN (t + 1) m) c = symbolAt q := by
    unfold symbolOut
    rw [← hx, hsym]
  refine ⟨(p.val : Int), (f.val : Int), (r.val : Int), (g.val : Int), (q.val : Int),
    ?_, hf, ?_, hg, hg2, ?_, symbolAt q, alphabetAt_val q, ?_⟩
  · unfold plugBoardAssign
    rw [← hx, letterToNum_symbolAt, readAt_val, hp]
  · rw [readAt_val, hr]
  · unfold plugBoardAssign
    rw [readAt_val, hq]
  · rw [h1, cipherText_get _ m t c hc, hout]

theorem substitution_order_witness :
    (∀ i, IsPermutation ((promptMessage sampleMachine ['O', 'r', 'd', 'e', 'r']).rotors i)) ∧
    InRange (promptMessage sampleMachine ['O', 'r', 'd', 'e', 'r']).reflector ∧
    InRange (promptMessage sampleMachine ['O', 'r', 'd', 'e', 'r']).plugBoard ∧
    InAlphabet (promptMessage sampleMachine ['O', 'r', 'd', 'e', 'r']).message ∧
    ∃ m', encryptLetters (promptMessage sampleMachine ['O', 'r', 'd', 'e', 'r']) = .ok m' ∧
      ∀ (t : Nat) (c : Char), ['O', 'r', 'd', 'e', 'r'].get? t = some c →
        ∃ p f r g q : Int,
          plugBoardAssign (promptMessage sampleMachine ['O', 'r', 'd', 'e', 'r'])
            (letterToNum c) = .ok p ∧
          encryptLetter (advanceN (t + 1)
            (promptMessage sampleMachine ['O', 'r', 'd', 'e', 'r'])) p = .ok f ∧
          readAt sampleMachine.reflector f = .ok r ∧
          reverseRotors (advanceN (t + 1)
            (promptMessage sampleMachine ['O', 'r', 'd', 'e', 'r'])).rotors r = (g, 0) ∧
          encryptLetter (advanceN (t + 1)
            (promptMessage sampleMachine ['O', 'r', 'd', 'e', 'r'])) g = .ok r ∧
          plugBoardAssign (promptMessage sampleMachine ['O', 'r', 'd', 'e', 'r']) g = .ok q ∧
          ∃ out : Char, alphabetAt q = .ok out ∧ m'.message.get? t = some out :=
  ⟨sampleMachine_rotors, sampleMachine_reflector.involution.inRange,
    sampleMachine_plugBoard.inRange, by decide,
    substitution_order (promptMessage sampleMachine ['O', 'r', 'd', 'e', 'r'])
      sampleMachine_rotors sampleMachine_reflector.involution.inRange
      sampleMachine_plugBoard.inRange rfl (by decide)⟩

theorem encryptSymbol_ne (m : Machine) (hrot : ∀ i, IsPermutation (m.rotors i))
    (hrefl : IsFixedPointFreeInvolution m.reflector) (hplug : IsInvolution m.plugBoard)
    (x : Fin ALPHLENGTH) :
    ∃ y : Fin ALPHLENGTH, encryptSymbol m (symbolAt x) = .ok (symbolAt y, 0) ∧ y ≠ x := by
  obtain ⟨p, hp⟩ := hplug.inRange.exists_column x
  obtain ⟨f, hf, _⟩ := encryptLetter_inverse m hrot 0 p
  obtain ⟨r, hr, _, hrf⟩ := hrefl f
  obtain ⟨g, hg, hg2⟩ := reverseRotors_inverse m hrot r
  obtain ⟨q, hq⟩ := hplug.inRange.exists_column g
  refine ⟨q, encryptSymbol_eq m x p f r g q 0 hp hf hr hg hq, ?_⟩
  intro hqx
  have h1 : m.plugBoard q = (g.val : Int) := hplug.apply hq
  rw [hqx, hp] at h1
  have hpg : p = g := val_inj h1
  rw [← hpg, hf] at hg2
  have hfr : (f.val : Int) = (r.val : Int) := by
    injection hg2
  exact hrf (val_inj hfr).symm

/-- C17, no symbol is enciphered into itself: on a machine whose rotors are permutations of
`[0, ALPHLENGTH)`, whose reflector is an involution without fixed point and whose plugboard
is mapped, with a message over the alphabet, `encryptLetters` returns and the character
left at each position differs from the character that was there. -/
theorem no_symbol_to_itself (m : Machine) (hrot : ∀ i, IsPermutation (m.rotors i))
    (hrefl : IsFixedPointFreeInvolution m.reflector)
    (hlen : m.length = (m.message.length : Int)) (ha : InAlphabet m.message) :
    ∃ m', encryptLetters (mapPlugBoard m) = .ok m' ∧
      ∀ (t : Nat) (c : Char), m.message.get? t = some c →
        ∃ out : Char, m'.message.get? t = some out ∧ out ≠ c := by
  have hplug := mapPlugBoard_involution m
  have hs : Sound (mapPlugBoard m) := ⟨hrot, hrefl.involution.inRange, hplug.inRange⟩
  obtain ⟨m', h0, h1, _⟩ := encryptLetters_spec (mapPlugBoard m) hs hlen ha
  refine ⟨m', h0, ?_⟩
  intro t c hc
  have hsA := sound_advanceN (t + 1) hs
  obtain ⟨x, hx⟩ := exists_symbolAt_of_mem (ha c (List.get?_mem hc))
  obtain ⟨y, hy, hyx⟩ := encryptSymbol_ne (advanceN (t + 1) (mapPlugBoard m)) hsA.1
    (by rw [advanceN_reflector]; exact hrefl) (by rw [advanceN_plugBoard]; exact hplug) x
  have hout : symbolOut (advanceN (t + 1) (mapPlugBoard m)) c = symbolAt y := by
    unfold symbolOut
    rw [← hx, hy]
  refine ⟨symbolAt y, ?_, ?_⟩
  · rw [h1]
    show (cipherText (mapPlugBoard m) m.message).get? t = _
    rw [cipherText_get _ _ t c hc, hout]
  · rw [← hx]
    exact fun e => hyx (symbolAt_injective e)

theorem no_symbol_to_itself_witness :
    (∀ i, IsPermutation ((promptMessage sampleMachine ['A', 'A', 'b', '!']).rotors i)) ∧
    IsFixedPointFreeInvolution (promptMessage sampleMachine ['A', 'A', 'b', '!']).reflector ∧
    InAlphabet (promptMessage sampleMachine ['A', 'A', 'b', '!']).message ∧
    ∃ m', encryptLetters (mapPlugBoard (promptMessage sampleMachine ['A', 'A', 'b', '!']))
        = .ok m' ∧
      ∀ (t : Nat) (c : Char), ['A', 'A', 'b', '!'].get? t = some c →
        ∃ out : Char, m'.message.get? t = some out ∧ out ≠ c :=
  ⟨sampleMachine_rotors, sampleMachine_reflector, by decide,
    no_symbol_to_itself (promptMessage sampleMachine ['A', 'A', 'b', '!'])
      sampleMachine_rotors sampleMachine_reflector rfl (by decide)⟩

end Enigma
